import Mathlib

/-!
Verification of the CCB core against its implementation.

Strings are modelled as `List Char`; each Go function used by the claims is
translated into an executable Lean definition that follows the source
line by line.  Go regular expressions are translated into deterministic
matchers over the same character classes the patterns use.
-/

set_option maxRecDepth 20000

namespace CCB

/-- Convenience: the character list of a string literal. -/
def str (s : String) : List Char := s.toList

/-! ### Character classes -/

/-- Character class of the RE2 escape for whitespace, namely tab, newline,
form feed, carriage return and space. -/
def reSpace (c : Char) : Bool :=
  c == ' ' || c == '\t' || c == '\n' || c == '\x0c' || c == '\r'

/-- Unicode white space as used by the Go TrimSpace helper. -/
def goSpace (c : Char) : Bool :=
  c == ' ' || c == '\t' || c == '\n' || c == '\x0b' || c == '\x0c' || c == '\r' ||
  c.toNat == 0x85 || c.toNat == 0xA0 || c.toNat == 0x1680 ||
  (0x2000 ≤ c.toNat && c.toNat ≤ 0x200A) ||
  c.toNat == 0x2028 || c.toNat == 0x2029 || c.toNat == 0x202F ||
  c.toNat == 0x205F || c.toNat == 0x3000

/-- Upper-case ASCII letter. -/
def isUpperAZ (c : Char) : Bool :=
  decide (65 ≤ c.toNat) && decide (c.toNat ≤ 90)

/-- ASCII digit. -/
def isDigit09 (c : Char) : Bool :=
  decide (48 ≤ c.toNat) && decide (c.toNat ≤ 57)

/-- Character admitted inside a generic done tag, the class of upper-case
letters, digits and underscore. -/
def isTagChar (c : Char) : Bool :=
  isUpperAZ c || isDigit09 c || c == '_'

/-! ### Line splitting and trimming -/

/-- Model of splitting a text on the newline byte; like the Go split it
always returns at least one (possibly empty) element. -/
def splitOnNl : List Char → List (List Char)
  | [] => [[]]
  | c :: rest =>
    let r := splitOnNl rest
    if c = '\n' then [] :: r
    else (c :: r.headI) :: r.tail

/-- Model of joining lines with the newline byte. -/
def joinNl : List (List Char) → List Char
  | [] => []
  | [l] => l
  | l :: ls => l ++ '\n' :: joinNl ls

/-- Generic right trim: drop the longest suffix of characters satisfying a
predicate. -/
def trimRightBy (p : Char → Bool) (l : List Char) : List Char :=
  (l.reverse.dropWhile p).reverse

/-- Right trim of carriage returns and newlines (the Go cutset used when
normalizing a split line). -/
def trimRightRN : List Char → List Char :=
  trimRightBy (fun c => c == '\r' || c == '\n')

/-- Right trim of carriage returns only. -/
def trimCR : List Char → List Char :=
  trimRightBy (fun c => c == '\r')

/-- Membership in the Go cutset of newline, carriage return, tab and space. -/
def wsCut (c : Char) : Bool :=
  c == '\n' || c == '\r' || c == '\t' || c == ' '

/-- Right trim with the cutset of newline, carriage return, tab and space. -/
def trimRightWS : List Char → List Char :=
  trimRightBy wsCut

/-- Model of the Go TrimSpace helper: strip Unicode white space from both
ends. -/
def trimSpaceGo (l : List Char) : List Char :=
  trimRightBy goSpace (l.dropWhile goSpace)

/-! ### Facts about the splitting functions -/

theorem splitOnNl_ne_nil (t : List Char) : splitOnNl t ≠ [] := by
  cases t with
  | nil => simp [splitOnNl]
  | cons c rest =>
    simp only [splitOnNl]
    split <;> simp

theorem splitOnNl_append_nl (a b : List Char) :
    splitOnNl (a ++ '\n' :: b) = splitOnNl a ++ splitOnNl b := by
  induction a with
  | nil => simp [splitOnNl]
  | cons c a ih =>
    by_cases hc : c = '\n'
    · subst hc
      simp [splitOnNl, ih]
    · have hne := splitOnNl_ne_nil a
      cases hA : splitOnNl a with
      | nil => exact absurd hA hne
      | cons x A =>
        simp [splitOnNl, hc, ih, hA]

theorem splitOnNl_no_nl (b : List Char) (h : '\n' ∉ b) : splitOnNl b = [b] := by
  induction b with
  | nil => rfl
  | cons c rest ih =>
    have hc : ¬ c = '\n' := fun hc => h (hc ▸ List.mem_cons_self c rest)
    have hrest : '\n' ∉ rest := fun hm => h (List.mem_cons_of_mem c hm)
    simp [splitOnNl, hc, ih hrest]

theorem joinNl_cons_cons (l : List Char) (x : List Char) (ls : List (List Char)) :
    joinNl (l :: x :: ls) = l ++ '\n' :: joinNl (x :: ls) := rfl

theorem joinNl_splitOnNl (t : List Char) : joinNl (splitOnNl t) = t := by
  induction t with
  | nil => rfl
  | cons c rest ih =>
    by_cases hc : c = '\n'
    · subst hc
      have hne := splitOnNl_ne_nil rest
      cases hA : splitOnNl rest with
      | nil => exact absurd hA hne
      | cons x ls =>
        have : joinNl ([] :: x :: ls) = [] ++ '\n' :: joinNl (x :: ls) := rfl
        simp [splitOnNl, hA, this, hA ▸ ih]
    · have hne := splitOnNl_ne_nil rest
      cases hA : splitOnNl rest with
      | nil => exact absurd hA hne
      | cons x ls =>
        cases ls with
        | nil =>
          have : joinNl [x] = x := rfl
          simp only [splitOnNl, hA, if_neg hc, List.headI, List.tail]
          have ih' : joinNl [x] = rest := hA ▸ ih
          simp only [joinNl] at ih' ⊢
          simp [ih']
        | cons y ys =>
          simp only [splitOnNl, hA, if_neg hc, List.headI, List.tail]
          have ih' : joinNl (x :: y :: ys) = rest := hA ▸ ih
          rw [joinNl_cons_cons] at ih'
          rw [joinNl_cons_cons]
          simp [← ih']

theorem mem_splitOnNl (t : List Char) (l : List Char) (hl : l ∈ splitOnNl t) :
    (∀ c ∈ l, c ∈ t) ∧ '\n' ∉ l := by
  induction t generalizing l with
  | nil =>
    simp [splitOnNl] at hl
    subst hl
    simp
  | cons d rest ih =>
    by_cases hd : d = '\n'
    · subst hd
      simp only [splitOnNl, if_pos rfl] at hl
      rcases List.mem_cons.mp hl with h | h
      · subst h; simp
      · obtain ⟨hsub, hnl⟩ := ih l h
        exact ⟨fun c hc => List.mem_cons_of_mem _ (hsub c hc), hnl⟩
    · have hne := splitOnNl_ne_nil rest
      cases hA : splitOnNl rest with
      | nil => exact absurd hA hne
      | cons x ls =>
        simp only [splitOnNl, hA, if_neg hd, List.headI, List.tail] at hl
        rcases List.mem_cons.mp hl with h | h
        · subst h
          have hx : x ∈ splitOnNl rest := hA ▸ List.mem_cons_self x ls
          obtain ⟨hsub, hnl⟩ := ih x hx
          constructor
          · intro c hc
            rcases List.mem_cons.mp hc with h | h
            · subst h; exact List.mem_cons_self _ _
            · exact List.mem_cons_of_mem _ (hsub c h)
          · intro hmem
            rcases List.mem_cons.mp hmem with h | h
            · exact hd h.symm
            · exact hnl h
        · have hx : l ∈ splitOnNl rest := hA ▸ List.mem_cons_of_mem x h
          obtain ⟨hsub, hnl⟩ := ih l hx
          exact ⟨fun c hc => List.mem_cons_of_mem _ (hsub c hc), hnl⟩

/-! ### Facts about the trimming functions -/

theorem trimRightBy_eq_self (p : Char → Bool) (l : List Char)
    (h : ∀ c ∈ l, p c = false) : trimRightBy p l = l := by
  unfold trimRightBy
  have : l.reverse.dropWhile p = l.reverse := by
    cases hr : l.reverse with
    | nil => simp
    | cons c cs =>
      have hc : c ∈ l := by
        have : c ∈ l.reverse := hr ▸ List.mem_cons_self c cs
        exact List.mem_reverse.mp this
      simp [List.dropWhile_cons, h c hc]
  simp [this]

theorem trimRightBy_eq_nil_iff (p : Char → Bool) (l : List Char) :
    trimRightBy p l = [] ↔ ∀ c ∈ l, p c = true := by
  unfold trimRightBy
  rw [List.reverse_eq_nil_iff, List.dropWhile_eq_nil_iff]
  constructor
  · intro h c hc
    exact h c (List.mem_reverse.mpr hc)
  · intro h c hc
    exact h c (List.mem_reverse.mp hc)

theorem trimRightBy_append_sat (p : Char → Bool) (l : List Char) (c : Char)
    (hc : p c = true) : trimRightBy p (l ++ [c]) = trimRightBy p l := by
  unfold trimRightBy
  simp [List.dropWhile_cons, hc]

theorem trimRightBy_sublist (p : Char → Bool) (l : List Char) :
    ∀ c ∈ trimRightBy p l, c ∈ l := by
  intro c hc
  unfold trimRightBy at hc
  have := List.mem_reverse.mp hc
  have := (List.dropWhile_sublist (l := l.reverse) (p := p)).mem this
  exact List.mem_reverse.mp this

theorem trimSpaceGo_eq_nil_iff (l : List Char) :
    trimSpaceGo l = [] ↔ ∀ c ∈ l, goSpace c = true := by
  unfold trimSpaceGo
  rw [trimRightBy_eq_nil_iff]
  constructor
  · intro h c hc
    have hsplit : c ∈ l.takeWhile goSpace ++ l.dropWhile goSpace := by
      rw [List.takeWhile_append_dropWhile]
      exact hc
    rcases List.mem_append.mp hsplit with hm | hm
    · exact List.mem_takeWhile_imp hm
    · exact h c hm
  · intro h c hc
    exact h c ((List.dropWhile_sublist (l := l) (p := goSpace)).mem hc)

/-! ### Protocol marker library

Translation of the marker helpers of the protocol package.  The three Go
regular expressions are rendered as deterministic matchers: each pattern is
anchored at the start, its components consume disjoint character classes, so
greedy scanning is equivalent to the regular expression semantics. -/

/-- Literal of the anchor marker. -/
def reqIDMarker : List Char := "CCB_REQ_ID:".toList

/-- Literal of the done marker. -/
def doneMarker : List Char := "CCB_DONE:".toList

/-- Consume exactly n digit characters, returning the remainder. -/
def parseDigitsN : Nat → List Char → Option (List Char)
  | 0, l => some l
  | _ + 1, [] => none
  | n + 1, c :: l => if isDigit09 c then parseDigitsN n l else none

/-- Matcher for the timestamp-PID shape, eight digits, dash, six digits,
dash, three digits, dash, one or more digits, then white space to the end. -/
def reqIdDigitsMatch (r3 : List Char) : Bool :=
  match parseDigitsN 8 r3 with
  | some ('-' :: r4) =>
    match parseDigitsN 6 r4 with
    | some ('-' :: r5) =>
      match parseDigitsN 3 r5 with
      | some ('-' :: r6) =>
        !(r6.takeWhile isDigit09).isEmpty && (r6.dropWhile isDigit09).all reSpace
      | _ => false
    | _ => false
  | _ => false

/-- Matcher for the optional colon-and-timestamp tail of a generic done tag
followed by white space to the end. -/
def doneTagTail (rest : List Char) : Bool :=
  match rest.dropWhile reSpace with
  | [] => true
  | ':' :: r2 => reqIdDigitsMatch (r2.dropWhile reSpace)
  | _ => false

/-- Matcher for the generic done tag pattern: optional white space, an
upper-case letter followed by tag characters ending in the literal tail
underscore-DONE, an optional colon plus timestamp-PID, white space to the
end. -/
def genericDoneTagMatch (line : List Char) : Bool :=
  !((line.dropWhile reSpace).takeWhile isTagChar).isEmpty &&
  isUpperAZ ((line.dropWhile reSpace).takeWhile isTagChar).headI &&
  ("_DONE".toList.isSuffixOf ((line.dropWhile reSpace).takeWhile isTagChar)) &&
  doneTagTail ((line.dropWhile reSpace).dropWhile isTagChar)

/-- Matcher for lines that start, after white space, with the CCB done word
followed by optional white space and a colon. -/
def ccbDoneColonMatch (line : List Char) : Bool :=
  ("CCB_DONE".toList.isPrefixOf (line.dropWhile reSpace)) &&
    (match ((line.dropWhile reSpace).drop 8).dropWhile reSpace with
     | ':' :: _ => true
     | _ => false)

/-- Matcher for a full CCB done line with any timestamp-PID identifier. -/
def anyCCBDoneLineMatch (line : List Char) : Bool :=
  (doneMarker.isPrefixOf (line.dropWhile reSpace)) &&
    reqIdDigitsMatch (((line.dropWhile reSpace).drop 9).dropWhile reSpace)

/-- Decide whether rest equals white space, then the literal r, then white
space; used by the done-line matcher built for one request ID. -/
def wsPaddedEq (r rest : List Char) : Bool :=
  (List.range ((rest.takeWhile reSpace).length + 1)).any fun i =>
    r.isPrefixOf (rest.drop i) && ((rest.drop i).drop r.length).all reSpace

/-- Matcher for the done line of one specific request ID: white space, the
done marker, white space, the quoted request ID, white space to the end. -/
def doneLineMatch (reqID line : List Char) : Bool :=
  (doneMarker.isPrefixOf (line.dropWhile reSpace)) &&
    wsPaddedEq reqID ((line.dropWhile reSpace).drop 9)

/-- Translation of the helper deciding that a line is a generic done tag
and not a CCB done line. -/
def isGenericDoneTag (line : List Char) : Bool :=
  genericDoneTagMatch line && !(ccbDoneColonMatch line)

/-- Translation of the helper deciding that a line is trailing noise, that
is blank or a generic done tag. -/
def isTrailingNoiseLine (line : List Char) : Bool :=
  (trimSpaceGo line).isEmpty || isGenericDoneTag line

/-- Translation of the line splitter of the protocol package: empty text
gives no lines, otherwise split on newline and strip trailing carriage
returns and newlines from every line. -/
def splitLines (t : List Char) : List (List Char) :=
  if t.isEmpty then [] else (splitOnNl t).map trimRightRN

/-- Translation of the done detector: walk the split lines from the end,
skip trailing noise, and test the first substantive line against the done
line of the request. -/
def IsDoneText (text reqID : List Char) : Bool :=
  match (splitLines text).reverse.dropWhile isTrailingNoiseLine with
  | [] => false
  | l :: _ => doneLineMatch reqID l

/-- Drop trailing noise lines, the loop shared by the strip helpers. -/
def dropTrailingNoise (ls : List (List Char)) : List (List Char) :=
  (ls.reverse.dropWhile isTrailingNoiseLine).reverse

/-- Middle step of the strip helper: drop the final line when it is the
done line of the request. -/
def stripDoneStep (reqID : List Char) (l1 : List (List Char)) :
    List (List Char) :=
  if !l1.isEmpty && doneLineMatch reqID (l1.getLastD []) then l1.dropLast
  else l1

/-- Translation of the strip helper: drop trailing noise, drop the done
line of the request when present, drop more noise, join and right trim. -/
def StripDoneText (text reqID : List Char) : List Char :=
  if (splitLines text).isEmpty then [] else
  trimRightWS (joinNl (dropTrailingNoise
    (stripDoneStep reqID (dropTrailingNoise (splitLines text)))))

/-- Translation of the display helper: drop from the tail every line that
is noise or any CCB done line, join and right trim. -/
def StripTrailingMarkers (text : List Char) : List Char :=
  trimRightWS (joinNl (((splitLines text).reverse.dropWhile
      (fun l => isTrailingNoiseLine l || anyCCBDoneLineMatch l)).reverse))

/-- Literal of the instruction block inserted by the prompt wrapper. -/
def wrapInstrText : List Char :=
  ("\n\nIMPORTANT:\n- Reply normally.\n- Reply normally, in English.\n" ++
   "- End your reply with this exact final line (verbatim, on its own line):\n").toList

/-- Translation of the prompt wrapper: anchor line, blank line, the right
trimmed message, the instruction block, and the done line. -/
def WrapCodexPrompt (message reqID : List Char) : List Char :=
  reqIDMarker ++ ' ' :: reqID ++ '\n' :: '\n' :: trimRightWS message ++
    wrapInstrText ++ doneMarker ++ ' ' :: reqID ++ ['\n']

/-! ### Facts about the marker library -/

theorem trimRightRN_eq_self (x : List Char) (hnl : '\n' ∉ x) (hcr : '\r' ∉ x) :
    trimRightRN x = x :=
  trimRightBy_eq_self _ x (fun c hc => by
    have h1 : c ≠ '\r' := fun h => hcr (h ▸ hc)
    have h2 : c ≠ '\n' := fun h => hnl (h ▸ hc)
    simp [h1, h2])

theorem splitLines_ne_nil (q : Char) (qs : List Char) :
    splitLines (q :: qs) ≠ [] := by
  simp only [splitLines, List.isEmpty_cons, if_neg]
  simp [splitOnNl_ne_nil]

theorem splitLines_append_line (reply x : List Char) (hre : reply ≠ [])
    (hnl : '\n' ∉ x) (hcr : '\r' ∉ x) :
    splitLines (reply ++ '\n' :: x) = splitLines reply ++ [x] := by
  have hx : trimRightRN x = x := trimRightRN_eq_self x hnl hcr
  have h1 : (reply ++ '\n' :: x).isEmpty = false := by
    cases reply with
    | nil => exact absurd rfl hre
    | cons a as => simp
  have h2 : reply.isEmpty = false := by
    cases reply with
    | nil => exact absurd rfl hre
    | cons a as => simp
  simp [splitLines, h1, h2, splitOnNl_append_nl, splitOnNl_no_nl x hnl, hx]

theorem splitLines_nl_cons (x : List Char) (hnl : '\n' ∉ x) (hcr : '\r' ∉ x) :
    splitLines ('\n' :: x) = [[], x] := by
  have hx : trimRightRN x = x := trimRightRN_eq_self x hnl hcr
  simp [splitLines, splitOnNl, splitOnNl_no_nl x hnl, hx]
  rfl

theorem noise_nil : isTrailingNoiseLine [] = true := by decide

/-- Shared carrier of done-detection noise invariance: appending any one
trailing noise line does not change the result. -/
theorem isDone_append_noise (reply x r : List Char)
    (hx : isTrailingNoiseLine x = true) (hnl : '\n' ∉ x) (hcr : '\r' ∉ x) :
    IsDoneText (reply ++ '\n' :: x) r = IsDoneText reply r := by
  cases reply with
  | nil =>
    rw [List.nil_append]
    unfold IsDoneText
    rw [splitLines_nl_cons x hnl hcr]
    simp [List.dropWhile_cons, hx, noise_nil, splitLines]
  | cons q qs =>
    have hsp := splitLines_append_line (q :: qs) x (by simp) hnl hcr
    unfold IsDoneText
    rw [hsp, List.reverse_append]
    simp [List.dropWhile_cons, hx]

theorem dropTrailingNoise_append (L : List (List Char)) (x : List Char)
    (hx : isTrailingNoiseLine x = true) :
    dropTrailingNoise (L ++ [x]) = dropTrailingNoise L := by
  unfold dropTrailingNoise
  rw [List.reverse_append]
  simp [List.dropWhile_cons, hx]

/-- Shared carrier for the strip helper: appending any one trailing noise
line does not change the result. -/
theorem strip_append_noise (reply x r : List Char)
    (hx : isTrailingNoiseLine x = true) (hnl : '\n' ∉ x) (hcr : '\r' ∉ x) :
    StripDoneText (reply ++ '\n' :: x) r = StripDoneText reply r := by
  cases reply with
  | nil =>
    rw [List.nil_append]
    have hdrop : dropTrailingNoise [[], x] = [] := by
      unfold dropTrailingNoise
      simp [List.dropWhile_cons, hx, noise_nil]
    unfold StripDoneText
    rw [splitLines_nl_cons x hnl hcr]
    rw [if_neg (by simp)]
    rw [hdrop]
    rfl
  | cons q qs =>
    have hsp := splitLines_append_line (q :: qs) x (by simp) hnl hcr
    have h1 : ¬ ((splitLines (q :: qs) ++ [x]).isEmpty = true) := by
      cases h : splitLines (q :: qs) ++ [x] with
      | nil =>
        have : x ∈ splitLines (q :: qs) ++ [x] := by simp
        rw [h] at this
        exact absurd this (List.not_mem_nil x)
      | cons a as => simp
    have h2 : ¬ ((splitLines (q :: qs)).isEmpty = true) := by
      cases h : splitLines (q :: qs) with
      | nil => exact absurd h (splitLines_ne_nil q qs)
      | cons a as => simp
    unfold StripDoneText
    rw [hsp, if_neg h1, if_neg h2, dropTrailingNoise_append _ _ hx]

/-- Shared carrier for the display helper: appending any one trailing noise
line does not change the result. -/
theorem stripMarkers_append_noise (reply x : List Char)
    (hx : isTrailingNoiseLine x = true) (hnl : '\n' ∉ x) (hcr : '\r' ∉ x) :
    StripTrailingMarkers (reply ++ '\n' :: x) = StripTrailingMarkers reply := by
  cases reply with
  | nil =>
    rw [List.nil_append]
    unfold StripTrailingMarkers
    rw [splitLines_nl_cons x hnl hcr]
    simp [List.dropWhile_cons, hx, noise_nil, splitLines, joinNl,
      trimRightWS, trimRightBy]
  | cons q qs =>
    have hsp := splitLines_append_line (q :: qs) x (by simp) hnl hcr
    unfold StripTrailingMarkers
    rw [hsp, List.reverse_append]
    simp [List.dropWhile_cons, hx]

/-- A line recognized as a CCB done-with-colon line is never trailing
noise. -/
theorem ccb_colon_not_noise (line : List Char)
    (h : ccbDoneColonMatch line = true) : isTrailingNoiseLine line = false := by
  have hgen : isGenericDoneTag line = false := by
    unfold isGenericDoneTag
    simp [h]
  have hmemC : 'C' ∈ line := by
    unfold ccbDoneColonMatch at h
    rw [Bool.and_eq_true] at h
    have hpre := List.isPrefixOf_iff_prefix.mp h.1
    obtain ⟨t, ht⟩ := hpre
    have hCmem : 'C' ∈ line.dropWhile reSpace := by
      rw [← ht]
      simp
    exact (List.dropWhile_sublist (l := line) (p := reSpace)).mem hCmem
  have hblank : (trimSpaceGo line).isEmpty = false := by
    cases hts : trimSpaceGo line with
    | nil =>
      have := (trimSpaceGo_eq_nil_iff line).mp hts 'C' hmemC
      simp [goSpace] at this
    | cons a as => simp
  unfold isTrailingNoiseLine
  simp [hgen, hblank]

/-- The done marker followed by a space and a request ID satisfies the
colon matcher. -/
theorem dropWhile_cons_of_false {p : Char → Bool} {c : Char}
    (h : p c = false) (l : List Char) :
    List.dropWhile p (c :: l) = c :: l := by
  rw [List.dropWhile_cons, h]
  simp

theorem ccbDoneColonMatch_marker (r : List Char) :
    ccbDoneColonMatch (doneMarker ++ ' ' :: r) = true := by
  have hshape : doneMarker ++ ' ' :: r =
      "CCB_DONE".toList ++ ':' :: ' ' :: r := rfl
  unfold ccbDoneColonMatch
  rw [hshape]
  have hdw : ("CCB_DONE".toList ++ ':' :: ' ' :: r).dropWhile reSpace =
      "CCB_DONE".toList ++ ':' :: ' ' :: r := by
    have hc : ("CCB_DONE".toList ++ ':' :: ' ' :: r) =
        'C' :: ("CB_DONE".toList ++ ':' :: ' ' :: r) := rfl
    rw [hc, dropWhile_cons_of_false (by decide)]
  rw [hdw]
  have hpfx : ("CCB_DONE".toList).isPrefixOf
      ("CCB_DONE".toList ++ ':' :: ' ' :: r) = true :=
    List.isPrefixOf_iff_prefix.mpr (List.prefix_append _ _)
  have hdrop : ("CCB_DONE".toList ++ ':' :: ' ' :: r).drop 8 = ':' :: ' ' :: r := by
    have h8 : ("CCB_DONE".toList).length = 8 := by decide
    rw [← h8, List.drop_left]
  rw [hpfx, hdrop, dropWhile_cons_of_false (by decide)]
  rfl

/-- The done line built from the done marker and a request ID matches the
done-line matcher of that request ID. -/
theorem doneLineMatch_self (r : List Char) :
    doneLineMatch r (doneMarker ++ ' ' :: r) = true := by
  unfold doneLineMatch
  have hdw : (doneMarker ++ ' ' :: r).dropWhile reSpace =
      doneMarker ++ ' ' :: r := by
    have hc : doneMarker ++ ' ' :: r =
        'C' :: ("CB_DONE:".toList ++ ' ' :: r) := rfl
    rw [hc, dropWhile_cons_of_false (by decide)]
  rw [hdw]
  have hpfx : doneMarker.isPrefixOf (doneMarker ++ ' ' :: r) = true :=
    List.isPrefixOf_iff_prefix.mpr (List.prefix_append _ _)
  have hdrop : (doneMarker ++ ' ' :: r).drop 9 = ' ' :: r := by
    have h9 : doneMarker.length = 9 := by decide
    rw [← h9, List.drop_left]
  rw [hpfx, hdrop]
  have hws : wsPaddedEq r (' ' :: r) = true := by
    unfold wsPaddedEq
    rw [List.any_eq_true]
    refine ⟨1, ?_, ?_⟩
    · rw [List.mem_range]
      have : (List.takeWhile reSpace (' ' :: r)).length =
          (List.takeWhile reSpace r).length + 1 := by
        rw [List.takeWhile_cons]
        simp [reSpace]
      omega
    · have hd1 : (' ' :: r).drop 1 = r := rfl
      rw [hd1]
      have hp : r.isPrefixOf r = true :=
        List.isPrefixOf_iff_prefix.mpr (List.prefix_refl r)
      simp [hp, List.drop_length]
  simp [hws]

/-- C1: for every reply text, request ID and generic done-tag line x (a
line matching the upper-case underscore-DONE pattern, optionally with a
colon and timestamp-PID suffix, that is not a CCB done line), appending x
as a new trailing line does not change done detection. -/
theorem C1_done_detection_ignores_generic_noise
    (reply r x : List Char) (hx : isGenericDoneTag x = true)
    (hnl : '\n' ∉ x) (hcr : '\r' ∉ x) :
    IsDoneText (reply ++ '\n' :: x) r = IsDoneText reply r :=
  isDone_append_noise reply x r
    (by unfold isTrailingNoiseLine; simp [hx]) hnl hcr

/-- Witness for C1 at a concrete reply, request ID and noise line. -/
theorem C1_witness :
    isGenericDoneTag (str "CODEX_DONE") = true ∧
    IsDoneText (str "CCB_DONE: 20260125-143000-123-12345" ++
        '\n' :: str "CODEX_DONE") (str "20260125-143000-123-12345") =
      IsDoneText (str "CCB_DONE: 20260125-143000-123-12345")
        (str "20260125-143000-123-12345") :=
  ⟨by decide,
    C1_done_detection_ignores_generic_noise
      (str "CCB_DONE: 20260125-143000-123-12345")
      (str "20260125-143000-123-12345") (str "CODEX_DONE")
      (by decide) (by decide) (by decide)⟩

/-- C10: a bare CCB done word with no colon is classified as trailing
noise, so done detection and both strip helpers skip it, while any CCB
done line carrying a colon is never skipped as noise. -/
theorem C10_bare_done_word_is_noise (reply r line : List Char)
    (h : ccbDoneColonMatch line = true) :
    isTrailingNoiseLine (str "CCB_DONE") = true ∧
    IsDoneText (reply ++ '\n' :: str "CCB_DONE") r = IsDoneText reply r ∧
    StripDoneText (reply ++ '\n' :: str "CCB_DONE") r = StripDoneText reply r ∧
    StripTrailingMarkers (reply ++ '\n' :: str "CCB_DONE") =
      StripTrailingMarkers reply ∧
    isTrailingNoiseLine line = false :=
  ⟨by decide,
   isDone_append_noise reply (str "CCB_DONE") r (by decide) (by decide) (by decide),
   strip_append_noise reply (str "CCB_DONE") r (by decide) (by decide) (by decide),
   stripMarkers_append_noise reply (str "CCB_DONE") (by decide) (by decide) (by decide),
   ccb_colon_not_noise line h⟩

/-- Witness for C10 at a concrete reply, request ID and colon line. -/
theorem C10_witness :
    ccbDoneColonMatch (str "CCB_DONE: 20260125-143000-123-12345") = true ∧
    (IsDoneText (str "hello" ++ '\n' :: str "CCB_DONE") (str "1") =
      IsDoneText (str "hello") (str "1") ∧
     isTrailingNoiseLine (str "CCB_DONE: 20260125-143000-123-12345") = false) :=
  ⟨by decide,
   (C10_bare_done_word_is_noise (str "hello") (str "1")
      (str "CCB_DONE: 20260125-143000-123-12345") (by decide)).2.1,
   (C10_bare_done_word_is_noise (str "hello") (str "1")
      (str "CCB_DONE: 20260125-143000-123-12345") (by decide)).2.2.2.2⟩

/-! ### The strip and wrap round trip -/

/-- Instruction block of the wrapper without its final newline. -/
def wrapInstrLine : List Char :=
  ("\n\nIMPORTANT:\n- Reply normally.\n- Reply normally, in English.\n" ++
   "- End your reply with this exact final line (verbatim, on its own line):").toList

/-- Everything of the wrapped prompt before the final done line. -/
def wrapPre (message reqID : List Char) : List Char :=
  reqIDMarker ++ ' ' :: reqID ++ '\n' :: '\n' :: trimRightWS message ++
    wrapInstrLine

/-- The wrapped prompt without its final newline. -/
def wrapBody (message reqID : List Char) : List Char :=
  wrapPre message reqID ++ '\n' :: (doneMarker ++ ' ' :: reqID)

theorem wrapInstrText_eq : wrapInstrText = wrapInstrLine ++ ['\n'] := by decide

theorem wrap_eq_body (m r : List Char) :
    WrapCodexPrompt m r = wrapBody m r ++ ['\n'] := by
  unfold WrapCodexPrompt wrapBody wrapPre
  rw [wrapInstrText_eq]
  simp

theorem map_id_of_eq (f : List Char → List Char) (ls : List (List Char))
    (h : ∀ l ∈ ls, f l = l) : ls.map f = ls := by
  induction ls with
  | nil => rfl
  | cons a as ih =>
    rw [List.map_cons, h a (List.mem_cons_self a as),
      ih (fun l hl => h l (List.mem_cons_of_mem a hl))]

theorem not_mem_append_char {c : Char} {a b : List Char}
    (ha : c ∉ a) (hb : c ∉ b) : c ∉ a ++ b :=
  fun hc => (List.mem_append.mp hc).elim ha hb

theorem not_mem_cons_char {c d : Char} {b : List Char}
    (hne : c ≠ d) (hb : c ∉ b) : c ∉ d :: b :=
  fun hc => (List.mem_cons.mp hc).elim hne hb

theorem splitOnNl_cons_nl (rest : List Char) :
    splitOnNl ('\n' :: rest) = [] :: splitOnNl rest := by
  simp [splitOnNl]

/-- C2: appending a done-marker line to a wrapped prompt and stripping it
back off returns exactly the wrapped form (the anchored right-trimmed
message body with its instruction lines), right trimmed; stripping is a
left inverse on the wrapped form. -/
theorem C2_strip_wrap_left_inverse (m r : List Char)
    (hm : '\r' ∉ m) (hrn : '\n' ∉ r) (hrr : '\r' ∉ r) :
    StripDoneText (WrapCodexPrompt m r ++ '\n' :: (doneMarker ++ ' ' :: r)) r
      = trimRightWS (WrapCodexPrompt m r) := by
  have hdln_nonl : '\n' ∉ doneMarker ++ ' ' :: r :=
    not_mem_append_char (by decide) (not_mem_cons_char (by decide) hrn)
  have hdln_nocr : '\r' ∉ doneMarker ++ ' ' :: r :=
    not_mem_append_char (by decide) (not_mem_cons_char (by decide) hrr)
  have hmm_nocr : '\r' ∉ trimRightWS m :=
    fun h => hm (trimRightBy_sublist _ m '\r' h)
  have hpre_nocr : '\r' ∉ wrapPre m r := by
    unfold wrapPre
    exact not_mem_append_char
      (not_mem_append_char
        (not_mem_append_char (by decide)
          (not_mem_cons_char (by decide) hrr))
        (not_mem_cons_char (by decide)
          (not_mem_cons_char (by decide) hmm_nocr)))
      (by decide)
  have hbody_nocr : '\r' ∉ wrapBody m r := by
    unfold wrapBody
    exact not_mem_append_char hpre_nocr
      (not_mem_cons_char (by decide) hdln_nocr)
  have htext : WrapCodexPrompt m r ++ '\n' :: (doneMarker ++ ' ' :: r) =
      wrapBody m r ++ '\n' :: ('\n' :: (doneMarker ++ ' ' :: r)) := by
    rw [wrap_eq_body]
    simp
  have hsplit_text :
      splitLines (WrapCodexPrompt m r ++ '\n' :: (doneMarker ++ ' ' :: r)) =
        splitOnNl (wrapBody m r) ++ [[], doneMarker ++ ' ' :: r] := by
    rw [htext]
    unfold splitLines
    rw [if_neg (by simp)]
    rw [splitOnNl_append_nl]
    have h2 : splitOnNl ('\n' :: (doneMarker ++ ' ' :: r)) =
        [[], doneMarker ++ ' ' :: r] := by
      rw [splitOnNl_cons_nl, splitOnNl_no_nl _ hdln_nonl]
    rw [h2, List.map_append]
    have h3 : (splitOnNl (wrapBody m r)).map trimRightRN =
        splitOnNl (wrapBody m r) := by
      apply map_id_of_eq
      intro l hl
      obtain ⟨hsub, hnl⟩ := mem_splitOnNl _ l hl
      exact trimRightRN_eq_self l hnl (fun hcr => hbody_nocr (hsub _ hcr))
    rw [h3]
    have h4 : trimRightRN (doneMarker ++ ' ' :: r) = doneMarker ++ ' ' :: r :=
      trimRightRN_eq_self _ hdln_nonl hdln_nocr
    have h5 : trimRightRN [] = [] := rfl
    simp [h4, h5]
  have hnoise_dln : isTrailingNoiseLine (doneMarker ++ ' ' :: r) = false :=
    ccb_colon_not_noise _ (ccbDoneColonMatch_marker r)
  have hA : ¬ ((splitOnNl (wrapBody m r) ++
      [[], doneMarker ++ ' ' :: r]).isEmpty = true) := by
    cases h : splitOnNl (wrapBody m r) ++ [[], doneMarker ++ ' ' :: r] with
    | nil =>
      have : ([] : List Char) ∈
          splitOnNl (wrapBody m r) ++ [[], doneMarker ++ ' ' :: r] := by simp
      rw [h] at this
      exact absurd this (List.not_mem_nil _)
    | cons a as => simp
  have hstep1 : dropTrailingNoise (splitOnNl (wrapBody m r) ++
      [[], doneMarker ++ ' ' :: r]) =
      splitOnNl (wrapBody m r) ++ [[], doneMarker ++ ' ' :: r] := by
    unfold dropTrailingNoise
    rw [List.reverse_append]
    simp [List.dropWhile_cons, hnoise_dln]
  have hlast : (splitOnNl (wrapBody m r) ++
      [[], doneMarker ++ ' ' :: r]).getLastD [] = doneMarker ++ ' ' :: r := by
    have hshape : splitOnNl (wrapBody m r) ++ [[], doneMarker ++ ' ' :: r] =
        (splitOnNl (wrapBody m r) ++ [[]]) ++ [doneMarker ++ ' ' :: r] := by
      simp
    rw [hshape]
    exact List.getLastD_concat _ _ _
  have hstep2 : stripDoneStep r (splitOnNl (wrapBody m r) ++
      [[], doneMarker ++ ' ' :: r]) = splitOnNl (wrapBody m r) ++ [[]] := by
    unfold stripDoneStep
    rw [hlast, doneLineMatch_self]
    rw [if_pos]
    · have hshape : splitOnNl (wrapBody m r) ++ [[], doneMarker ++ ' ' :: r] =
          (splitOnNl (wrapBody m r) ++ [[]]) ++ [doneMarker ++ ' ' :: r] := by
        simp
      rw [hshape, List.dropLast_concat]
    · rw [Bool.and_eq_true]
      refine ⟨?_, rfl⟩
      cases h : splitOnNl (wrapBody m r) ++ [[], doneMarker ++ ' ' :: r] with
      | nil =>
        have : ([] : List Char) ∈
            splitOnNl (wrapBody m r) ++ [[], doneMarker ++ ' ' :: r] := by simp
        rw [h] at this
        exact absurd this (List.not_mem_nil _)
      | cons a as => simp
  have hAlast : splitOnNl (wrapBody m r) =
      splitOnNl (wrapPre m r) ++ [doneMarker ++ ' ' :: r] := by
    unfold wrapBody
    rw [splitOnNl_append_nl, splitOnNl_no_nl _ hdln_nonl]
  have hstep3 : dropTrailingNoise (splitOnNl (wrapBody m r) ++ [[]]) =
      splitOnNl (wrapBody m r) := by
    unfold dropTrailingNoise
    rw [List.reverse_append, hAlast, List.reverse_append]
    simp [List.dropWhile_cons, noise_nil, hnoise_dln]
  unfold StripDoneText
  rw [hsplit_text, if_neg hA, hstep1, hstep2, hstep3, joinNl_splitOnNl]
  rw [wrap_eq_body]
  exact (trimRightBy_append_sat wsCut (wrapBody m r) '\n' (by decide)).symm

/-- Witness for C2 at a concrete message and request ID. -/
theorem C2_witness :
    ('\r' ∉ str "what is 6*7") ∧ ('\n' ∉ str "20250101-000000-000-1000") ∧
    StripDoneText (WrapCodexPrompt (str "what is 6*7")
        (str "20250101-000000-000-1000") ++
        '\n' :: (doneMarker ++ ' ' :: str "20250101-000000-000-1000"))
      (str "20250101-000000-000-1000")
      = trimRightWS (WrapCodexPrompt (str "what is 6*7")
          (str "20250101-000000-000-1000")) :=
  ⟨by decide, by decide,
   C2_strip_wrap_left_inverse (str "what is 6*7")
     (str "20250101-000000-000-1000") (by decide) (by decide) (by decide)⟩

/-! ### Forward log tailer -/

/-- State of the forward log reader: a byte offset and the carry buffer
holding the incomplete trailing line of the previous read. -/
structure LogReaderState where
  offset : Nat
  carry : List Char
deriving DecidableEq

/-- Translation of the incremental read: reset on truncation, return
nothing when no data was appended, otherwise read from the offset to the
end, join with the carry, split on newline, store the final (possibly
incomplete) element as the new carry and return the completed lines
stripped of trailing carriage returns. -/
def ReadNew (file : List Char) (st : LogReaderState) :
    List (List Char) × LogReaderState :=
  let st1 := if file.length < st.offset then ⟨0, []⟩ else st
  if file.length = st1.offset then ([], st1) else
  let data := file.drop st1.offset
  let parts := splitOnNl (st1.carry ++ data)
  if parts.isEmpty then ([], ⟨st1.offset + data.length, []⟩) else
  (parts.dropLast.map trimCR, ⟨st1.offset + data.length, parts.getLastD []⟩)

theorem getLastD_append_ne (X Y : List (List Char)) (d : List Char)
    (h : Y ≠ []) : (X ++ Y).getLastD d = Y.getLastD d := by
  rw [List.getLastD_eq_getLast?, List.getLastD_eq_getLast?,
    List.getLast?_append_of_ne_nil X h]

theorem getLast?_getD_cons_eq (y : List Char) (ys : List (List Char))
    (d1 d2 : List Char) :
    (y :: ys).getLast?.getD d1 = (y :: ys).getLast?.getD d2 := by
  cases h : (y :: ys).getLast? with
  | none => exact absurd h (by simp)
  | some z => rfl

/-- Carry decomposition of the newline splitter: splitting a concatenation
equals the closed lines of the first part followed by the split of the
carried final element joined with the second part. -/
theorem splitOnNl_carry (a b : List Char) :
    splitOnNl (a ++ b) =
      (splitOnNl a).dropLast ++ splitOnNl ((splitOnNl a).getLastD [] ++ b) := by
  induction a with
  | nil => simp [splitOnNl]
  | cons c a ih =>
    by_cases hc : c = '\n'
    · subst hc
      rw [List.cons_append, splitOnNl_cons_nl, splitOnNl_cons_nl, ih]
      cases hA : splitOnNl a with
      | nil => exact absurd hA (splitOnNl_ne_nil a)
      | cons x ls =>
        rw [List.getLastD_cons]
        cases ls with
        | nil => simp
        | cons y ys =>
          simp [List.getLastD_cons]
          try rw [getLast?_getD_cons_eq y ys x []]
    · cases hA : splitOnNl a with
      | nil => exact absurd hA (splitOnNl_ne_nil a)
      | cons x ls =>
        have hsc : splitOnNl (c :: (a ++ b)) =
            (c :: (splitOnNl (a ++ b)).headI) :: (splitOnNl (a ++ b)).tail := by
          simp [splitOnNl, hc]
        have hsa : splitOnNl (c :: a) = (c :: x) :: ls := by
          simp [splitOnNl, hc, hA]
        rw [List.cons_append, hsc, hsa, ih, hA]
        cases ls with
        | nil =>
          have hone : splitOnNl (x ++ b) ≠ [] := splitOnNl_ne_nil _
          cases hB : splitOnNl (x ++ b) with
          | nil => exact absurd hB hone
          | cons z zs =>
            have hcons : splitOnNl (c :: (x ++ b)) =
                (c :: (splitOnNl (x ++ b)).headI) :: (splitOnNl (x ++ b)).tail := by
              simp [splitOnNl, hc]
            simp [hB, hcons, List.getLastD_cons]
        | cons y ys =>
          simp [List.getLastD_cons]
          try rw [getLast?_getD_cons_eq y ys x []]

/-- C3: splitting the appended text across two incremental reads loses no
line and duplicates no line: the lines returned by the two reads are
exactly the completed (newline-terminated) lines of the whole text in
order, stripped of carriage returns, and the new carry is exactly the
(possibly incomplete) final segment, returned later once its newline
arrives. -/
theorem C3_forward_tailer_carry (a b : List Char) :
    (ReadNew a ⟨0, []⟩).1 ++ (ReadNew (a ++ b) (ReadNew a ⟨0, []⟩).2).1 =
      ((splitOnNl (a ++ b)).dropLast).map trimCR ∧
    (ReadNew (a ++ b) (ReadNew a ⟨0, []⟩).2).2.carry =
      (splitOnNl (a ++ b)).getLastD [] ∧
    (ReadNew (a ++ b) (ReadNew a ⟨0, []⟩).2).2.offset = (a ++ b).length := by
  have hzero : ∀ file : List Char, file ≠ [] →
      ReadNew file ⟨0, []⟩ =
        ((splitOnNl file).dropLast.map trimCR,
          ⟨file.length, (splitOnNl file).getLastD []⟩) := by
    intro file h
    have hne0 : ¬ (file.length = 0) := by
      simpa [List.length_eq_zero] using h
    simp [ReadNew, hne0, List.isEmpty_iff, splitOnNl_ne_nil file]
  have hsame : ∀ (file : List Char) (c : List Char),
      ReadNew file ⟨file.length, c⟩ = ([], ⟨file.length, c⟩) := by
    intro file c
    simp [ReadNew]
  have happend : ∀ (c : List Char), b ≠ [] →
      ReadNew (a ++ b) ⟨a.length, c⟩ =
        ((splitOnNl (c ++ b)).dropLast.map trimCR,
          ⟨(a ++ b).length, (splitOnNl (c ++ b)).getLastD []⟩) := by
    intro c hb
    have hlb : 0 < b.length := List.length_pos.mpr hb
    have h1 : ¬ ((a ++ b).length < a.length) := by
      rw [List.length_append]
      omega
    have h2 : ¬ ((a ++ b).length = a.length) := by
      rw [List.length_append]
      omega
    simp [ReadNew, h1, h2, List.drop_left, List.isEmpty_iff,
      splitOnNl_ne_nil, List.length_append]
    exact fun h => absurd h hb
  by_cases ha : a = []
  · subst ha
    have h0a : (ReadNew [] ⟨0, []⟩).1 = [] := rfl
    have h0b : (ReadNew [] ⟨0, []⟩).2 = ⟨0, []⟩ := rfl
    rw [List.nil_append, h0a, h0b, List.nil_append]
    by_cases hb : b = []
    · subst hb
      exact ⟨rfl, rfl, rfl⟩
    · have h1a : (ReadNew b ⟨0, []⟩).1 = (splitOnNl b).dropLast.map trimCR := by
        rw [hzero b hb]
      have h1b : (ReadNew b ⟨0, []⟩).2 = ⟨b.length, (splitOnNl b).getLastD []⟩ := by
        rw [hzero b hb]
      rw [h1a, h1b]
      exact ⟨rfl, rfl, rfl⟩
  · have h1a : (ReadNew a ⟨0, []⟩).1 = (splitOnNl a).dropLast.map trimCR := by
      rw [hzero a ha]
    have h1b : (ReadNew a ⟨0, []⟩).2 = ⟨a.length, (splitOnNl a).getLastD []⟩ := by
      rw [hzero a ha]
    rw [h1a, h1b]
    by_cases hb : b = []
    · subst hb
      have h2a : (ReadNew (a ++ []) ⟨a.length, (splitOnNl a).getLastD []⟩).1 = [] := by
        rw [List.append_nil, hsame]
      have h2b : (ReadNew (a ++ []) ⟨a.length, (splitOnNl a).getLastD []⟩).2 =
          ⟨a.length, (splitOnNl a).getLastD []⟩ := by
        rw [List.append_nil, hsame]
      rw [h2a, h2b]
      refine ⟨by simp, by simp, by simp⟩
    · have h2 := happend ((splitOnNl a).getLastD []) hb
      have h2a : (ReadNew (a ++ b) ⟨a.length, (splitOnNl a).getLastD []⟩).1 =
          (splitOnNl ((splitOnNl a).getLastD [] ++ b)).dropLast.map trimCR := by
        rw [h2]
      have h2b : (ReadNew (a ++ b) ⟨a.length, (splitOnNl a).getLastD []⟩).2 =
          ⟨(a ++ b).length, (splitOnNl ((splitOnNl a).getLastD [] ++ b)).getLastD []⟩ := by
        rw [h2]
      rw [h2a, h2b]
      have hcarry := splitOnNl_carry a b
      have hne : splitOnNl ((splitOnNl a).getLastD [] ++ b) ≠ [] :=
        splitOnNl_ne_nil _
      refine ⟨?_, ?_, rfl⟩
      · rw [hcarry, List.dropLast_append_of_ne_nil _ hne, List.map_append]
      · show (splitOnNl ((splitOnNl a).getLastD [] ++ b)).getLastD [] = _
        rw [hcarry, getLastD_append_ne _ _ _ hne]

/-! ### Project identity: path normalization -/

/-- Environment consulted by path normalization: home directory, working
directory, presence of an MSYS environment, and whether the platform is
Windows. -/
structure NormEnv where
  home : Option (List Char)
  cwd : List Char
  msystem : Bool
  goosWindows : Bool

/-- Lower-case ASCII letter. -/
def isLowerAZ (c : Char) : Bool :=
  decide (97 ≤ c.toNat) && decide (c.toNat ≤ 122)

/-- ASCII letter. -/
def isLetterAZ (c : Char) : Bool := isUpperAZ c || isLowerAZ c

/-- Lower-case an ASCII letter. -/
def toLowerAZ (c : Char) : Char :=
  if isUpperAZ c then Char.ofNat (c.toNat + 32) else c

/-- Fold every backslash to a forward slash. -/
def bslashToSlash (s : List Char) : List Char :=
  s.map (fun c => if c = '\\' then '/' else c)

/-- Decide whether a list starts with a slash. -/
def startsWithSlash : List Char → Bool
  | '/' :: _ => true
  | _ => false

/-- Matcher of the Windows drive pattern: a letter, a colon, then a slash
of either kind or the end of the text. -/
def winDriveMatch : List Char → Bool
  | c :: ':' :: rest =>
    isLetterAZ c &&
      (match rest with
       | [] => true
       | d :: _ => d == '/' || d == '\\')
  | _ => false

/-- Decomposition by the WSL mount pattern: slash mnt slash, a drive
letter, a slash, then any text free of newlines to the end. -/
def mntDriveDecomp : List Char → Option (Char × List Char)
  | '/' :: 'm' :: 'n' :: 't' :: '/' :: c :: '/' :: rest =>
    if isLetterAZ c && !(rest.contains '\n') then some (c, rest) else none
  | _ => none

/-- Decomposition by the MSYS drive pattern: a slash, a drive letter, a
slash, then any text free of newlines to the end. -/
def msysDriveDecomp : List Char → Option (Char × List Char)
  | '/' :: c :: '/' :: rest =>
    if isLetterAZ c && !(rest.contains '\n') then some (c, rest) else none
  | _ => none

/-- Generic character splitter, like the newline splitter but for any
separator; used for path components. -/
def splitOnChar (sep : Char) : List Char → List (List Char)
  | [] => [[]]
  | c :: rest =>
    let r := splitOnChar sep rest
    if c = sep then [] :: r else (c :: r.headI) :: r.tail

/-- Model of the standard library path cleaner over forward slashes:
split into components, drop empty and dot components, resolve dot-dot
against the stack (absolute paths drop unmatched dot-dot, relative paths
keep it), and rebuild; an empty result is dot, or slash when rooted. -/
def cleanPath (p : List Char) : List Char :=
  if p.isEmpty then ".".toList else
  let rooted := startsWithSlash p
  let comps := (splitOnChar '/' p).filter
    (fun c => !c.isEmpty && !(c == ".".toList))
  let out := comps.foldl (fun acc c =>
      if c = "..".toList then
        if rooted then acc.dropLast
        else if !acc.isEmpty && !(acc.getLastD [] == "..".toList) then
          acc.dropLast
        else acc ++ [c]
      else acc ++ [c]) ([] : List (List Char))
  let joined := List.intercalate "/".toList out
  if rooted then
    (if joined.isEmpty then "/".toList else '/' :: joined)
  else
    (if joined.isEmpty then ".".toList else joined)

/-- Model of the repository's posix-path cleaner: clean, then fold
backslashes to slashes. -/
def cleanPosixPath (p : List Char) : List Char :=
  bslashToSlash (cleanPath p)

/-- Model of the standard library join of two path elements: empty
elements are skipped, the rest joined with a slash and cleaned. -/
def goFilepathJoin (a b : List Char) : List Char :=
  if a.isEmpty then (if b.isEmpty then [] else cleanPath b)
  else if b.isEmpty then cleanPath a
  else cleanPath (a ++ '/' :: b)

/-- Final normalization step: lower-case a leading drive letter. -/
def normalizeDrive (s2 : List Char) : List Char :=
  if winDriveMatch s2 then toLowerAZ s2.headI :: s2.tail else s2

/-- Cleaning step: clean while preserving a leading UNC double slash,
then lower-case a leading drive letter. -/
def normalizeSep (s1 : List Char) : List Char :=
  normalizeDrive (if s1.take 2 == "//".toList then
      '/' :: '/' :: ((cleanPosixPath (s1.drop 2)).dropWhile (fun c => c == '/'))
    else cleanPosixPath s1)

/-- Drive rewriting step: map a WSL mount path, or under MSYS or Windows
a bare drive path, to the drive-colon form, then clean. -/
def normalizeDriveClean (env : NormEnv) (s0 : List Char) : List Char :=
  match mntDriveDecomp s0 with
  | some dr => normalizeSep (toLowerAZ dr.1 :: ':' :: '/' :: dr.2)
  | none =>
    match msysDriveDecomp s0 with
    | some dr =>
      normalizeSep (if env.msystem || env.goosWindows then
          toLowerAZ dr.1 :: ':' :: '/' :: dr.2
        else s0)
    | none => normalizeSep s0

/-- Absolutizing step: join relative paths onto the working directory,
then fold backslashes and continue with drive rewriting. -/
def normalizeAbs (env : NormEnv) (raw1 : List Char) : List Char :=
  normalizeDriveClean env (bslashToSlash
    (if startsWithSlash (bslashToSlash raw1) || (raw1.take 2 == "\\\\".toList)
        || winDriveMatch (bslashToSlash raw1) then raw1
      else goFilepathJoin env.cwd raw1))

/-- Tilde step: expand a leading tilde against the home directory. -/
def normalizeAfterTilde (env : NormEnv) (raw0 : List Char) : List Char :=
  normalizeAbs env (if raw0.headI = '~' then
      (match env.home with
       | some home => home ++ raw0.tail
       | none => raw0)
    else raw0)

/-- Translation of the work-directory normalizer: trim, expand a leading
tilde, absolutize relative paths against the working directory, fold
backslashes, rewrite WSL mount paths and (under MSYS or Windows) bare
drive paths to the drive-colon form, clean while preserving a UNC double
slash, and lower-case a leading drive letter. -/
def NormalizeWorkDir (env : NormEnv) (value : List Char) : List Char :=
  if (trimSpaceGo value).isEmpty then [] else
  normalizeAfterTilde env (trimSpaceGo value)

/-- Environment-free tail of the normalizer, reached whenever the MSYS
pattern does not apply. -/
def normalizeNoEnv (s0 : List Char) : List Char :=
  match mntDriveDecomp s0 with
  | some dr => normalizeSep (toLowerAZ dr.1 :: ':' :: '/' :: dr.2)
  | none => normalizeSep s0

/-! ### Project identity: digest

The project ID hashes the normalized path with the standard SHA-256;
the compression function below follows the FIPS 180-4 specification with
32-bit words carried as naturals reduced modulo two to the thirty-two. -/

/-- Modulus of a 32-bit word. -/
def M32 : Nat := 4294967296

/-- Addition modulo the word size. -/
def add32 (a b : Nat) : Nat := (a + b) % M32

/-- Right rotation of a 32-bit word by k. -/
def rotr32 (k n : Nat) : Nat := n / 2 ^ k + n % 2 ^ k * 2 ^ (32 - k)

/-- Bitwise complement within 32 bits. -/
def not32 (x : Nat) : Nat := Nat.xor x (M32 - 1)

/-- Three-way exclusive or. -/
def xor3 (a b c : Nat) : Nat := Nat.xor (Nat.xor a b) c

def bsig0 (x : Nat) : Nat := xor3 (rotr32 2 x) (rotr32 13 x) (rotr32 22 x)

def bsig1 (x : Nat) : Nat := xor3 (rotr32 6 x) (rotr32 11 x) (rotr32 25 x)

def ssig0 (x : Nat) : Nat := xor3 (rotr32 7 x) (rotr32 18 x) (x >>> 3)

def ssig1 (x : Nat) : Nat := xor3 (rotr32 17 x) (rotr32 19 x) (x >>> 10)

def ch32 (x y z : Nat) : Nat :=
  Nat.xor (Nat.land x y) (Nat.land (not32 x) z)

def maj32 (x y z : Nat) : Nat :=
  xor3 (Nat.land x y) (Nat.land x z) (Nat.land y z)

/-- Round constants of the hash, in decimal (the first words of the
fractional parts of the cube roots of the first 64 primes). -/
def sha256K : List Nat :=
  [1116352408, 1899447441, 3049323471, 3921009573,
   961987163, 1508970993, 2453635748, 2870763221,
   3624381080, 310598401, 607225278, 1426881987,
   1925078388, 2162078206, 2614888103, 3248222580,
   3835390401, 4022224774, 264347078, 604807628,
   770255983, 1249150122, 1555081692, 1996064986,
   2554220882, 2821834349, 2952996808, 3210313671,
   3336571891, 3584528711, 113926993, 338241895,
   666307205, 773529912, 1294757372, 1396182291,
   1695183700, 1986661051, 2177026350, 2456956037,
   2730485921, 2820302411, 3259730800, 3345764771,
   3516065817, 3600352804, 4094571909, 275423344,
   430227734, 506948616, 659060556, 883997877,
   958139571, 1322822218, 1537002063, 1747873779,
   1955562222, 2024104815, 2227730452, 2361852424,
   2428436474, 2756734187, 3204031479, 3329325298]

/-- Initial hash value, in decimal (the first words of the fractional
parts of the square roots of the first 8 primes). -/
def sha256H0 : List Nat :=
  [1779033703, 3144134277, 1013904242, 2773480762,
   1359893119, 2600822924, 528734635, 1541459225]

/-- Pack bytes into big-endian 32-bit words. -/
def bytesToWords : List Nat → List Nat
  | b0 :: b1 :: b2 :: b3 :: rest =>
    (((b0 * 256 + b1) * 256 + b2) * 256 + b3) :: bytesToWords rest
  | _ => []

/-- Extend sixteen schedule words to sixty-four. -/
def extendWords (ws : List Nat) : List Nat :=
  (List.range 48).foldl (fun acc i =>
    acc ++ [add32 (add32 (ssig1 (acc.getD (i + 14) 0)) (acc.getD (i + 9) 0))
      (add32 (ssig0 (acc.getD (i + 1) 0)) (acc.getD i 0))]) ws

/-- One round of the compression function on the eight-word state. -/
def compressStep (st : List Nat) (kw : Nat × Nat) : List Nat :=
  let a := st.getD 0 0
  let b := st.getD 1 0
  let c := st.getD 2 0
  let d := st.getD 3 0
  let e := st.getD 4 0
  let f := st.getD 5 0
  let g := st.getD 6 0
  let h := st.getD 7 0
  let t1 := add32 h (add32 (bsig1 e) (add32 (ch32 e f g) (add32 kw.1 kw.2)))
  let t2 := add32 (bsig0 a) (maj32 a b c)
  [add32 t1 t2, a, b, c, add32 d t1, e, f, g]

/-- Process one 64-byte block against the running hash value. -/
def processBlock (h : List Nat) (block : List Nat) : List Nat :=
  let ws := extendWords (bytesToWords block)
  let fin := (sha256K.zip ws).foldl compressStep h
  [add32 (h.getD 0 0) (fin.getD 0 0), add32 (h.getD 1 0) (fin.getD 1 0),
   add32 (h.getD 2 0) (fin.getD 2 0), add32 (h.getD 3 0) (fin.getD 3 0),
   add32 (h.getD 4 0) (fin.getD 4 0), add32 (h.getD 5 0) (fin.getD 5 0),
   add32 (h.getD 6 0) (fin.getD 6 0), add32 (h.getD 7 0) (fin.getD 7 0)]

/-- Chunk a byte list into 64-byte blocks. -/
def toBlocks (l : List Nat) : List (List Nat) :=
  if h : l = [] then [] else l.take 64 :: toBlocks (l.drop 64)
termination_by l.length
decreasing_by
  simp only [List.length_drop]
  have := List.length_pos.mpr h
  omega

/-- Big-endian bytes of a 32-bit word. -/
def wordBytes (w : Nat) : List Nat :=
  [w / 2 ^ 24 % 256, w / 2 ^ 16 % 256, w / 2 ^ 8 % 256, w % 256]

/-- The full digest: pad, process every block, serialize the state. -/
def sha256Bytes (msg : List Nat) : List Nat :=
  let bitLen := 8 * msg.length
  let lenBytes := [bitLen / 2 ^ 56 % 256, bitLen / 2 ^ 48 % 256,
    bitLen / 2 ^ 40 % 256, bitLen / 2 ^ 32 % 256, bitLen / 2 ^ 24 % 256,
    bitLen / 2 ^ 16 % 256, bitLen / 2 ^ 8 % 256, bitLen % 256]
  let padded := msg ++ 128 ::
    (List.replicate ((119 - msg.length % 64) % 64) 0 ++ lenBytes)
  (((toBlocks padded).foldl processBlock sha256H0).map wordBytes).flatten

/-- Encode each character as bytes in the standard eight-bit format. -/
def utf8Encode (s : List Char) : List Nat :=
  (s.map (fun c =>
    let n := c.toNat
    if n < 128 then [n]
    else if n < 2048 then [192 + n / 64, 128 + n % 64]
    else if n < 65536 then [224 + n / 4096, 128 + n / 64 % 64, 128 + n % 64]
    else [240 + n / 262144, 128 + n / 4096 % 64, 128 + n / 64 % 64,
      128 + n % 64])).flatten

/-- The lower-case hexadecimal alphabet. -/
def hexDigits : List Char := "0123456789abcdef".toList

/-- Lower-case hexadecimal encoding of a byte list. -/
def hexEncode (bs : List Nat) : List Char :=
  (bs.map (fun b => [hexDigits.getD (b / 16) '0', hexDigits.getD (b % 16) '0'])).flatten

/-- Translation of the project ID: absolutize the work directory (the
configuration-root probe returns either that very directory or nothing,
so the hashed base is always the absolute directory itself), normalize,
and hash. -/
def ComputeCCBProjectID (env : NormEnv) (workDir : List Char) : List Char :=
  hexEncode (sha256Bytes (utf8Encode (NormalizeWorkDir env
    (if startsWithSlash workDir then cleanPath workDir
     else goFilepathJoin env.cwd workDir))))

/-! ### Facts about project identity -/

theorem normalizeDriveClean_no_msys (env : NormEnv) (s0 : List Char)
    (h3 : msysDriveDecomp s0 = none) :
    normalizeDriveClean env s0 = normalizeNoEnv s0 := by
  unfold normalizeDriveClean normalizeNoEnv
  cases hm : mntDriveDecomp s0 with
  | some dr => rfl
  | none => rw [h3]

/-- On an already-trimmed absolute input without a leading tilde and
outside the MSYS pattern, the normalizer never consults its
environment. -/
theorem NormalizeWorkDir_closed (env : NormEnv) (v : List Char)
    (h0 : trimSpaceGo v = v) (hne : v.isEmpty = false)
    (h1 : ¬ (v.headI = '~'))
    (h2 : (startsWithSlash (bslashToSlash v) || (v.take 2 == "\\\\".toList)
        || winDriveMatch (bslashToSlash v)) = true)
    (h3 : msysDriveDecomp (bslashToSlash v) = none) :
    NormalizeWorkDir env v = normalizeNoEnv (bslashToSlash v) := by
  unfold NormalizeWorkDir
  rw [h0, if_neg (by simp [hne])]
  unfold normalizeAfterTilde
  rw [if_neg h1]
  unfold normalizeAbs
  rw [if_pos h2]
  exact normalizeDriveClean_no_msys env _ h3

theorem processBlock_length (h b : List Nat) : (processBlock h b).length = 8 := by
  simp [processBlock]

theorem foldl_processBlock_length (bs : List (List Nat)) (h : List Nat)
    (hh : h.length = 8) : (bs.foldl processBlock h).length = 8 := by
  induction bs generalizing h with
  | nil => simpa using hh
  | cons b bs ih =>
    rw [List.foldl_cons]
    exact ih _ (processBlock_length h b)

theorem flatten_map_const_length {α β : Type} (f : α → List β) (k : Nat)
    (hf : ∀ a, (f a).length = k) (l : List α) :
    ((l.map f).flatten).length = k * l.length := by
  induction l with
  | nil => simp
  | cons a as ih =>
    simp only [List.map_cons, List.flatten_cons, List.length_append, ih, hf a,
      List.length_cons]
    ring

theorem sha256Bytes_length (msg : List Nat) : (sha256Bytes msg).length = 32 := by
  simp only [sha256Bytes]
  have h8 : sha256H0.length = 8 := rfl
  rw [flatten_map_const_length wordBytes 4 (fun w => rfl),
    foldl_processBlock_length _ _ h8]

theorem hexEncode_length (bs : List Nat) : (hexEncode bs).length = 2 * bs.length := by
  simp only [hexEncode]
  rw [flatten_map_const_length
    (fun b : Nat => [hexDigits.getD (b / 16) '0', hexDigits.getD (b % 16) '0'])
    2 (fun b => rfl)]

theorem hexDigits_getD_mem (n : Nat) : hexDigits.getD n '0' ∈ hexDigits := by
  rcases Nat.lt_or_ge n 16 with h | h
  · interval_cases n <;> decide
  · have hd : hexDigits.getD n '0' = '0' := by
      apply List.getD_eq_default
      simpa [hexDigits] using h
    rw [hd]
    decide

theorem hexEncode_mem (bs : List Nat) : ∀ c ∈ hexEncode bs, c ∈ hexDigits := by
  intro c hc
  simp only [hexEncode] at hc
  rw [List.mem_flatten] at hc
  obtain ⟨s, hs, hcs⟩ := hc
  rw [List.mem_map] at hs
  obtain ⟨b, -, rfl⟩ := hs
  rcases List.mem_cons.mp hcs with h | h
  · rw [h]
    exact hexDigits_getD_mem _
  · rcases List.mem_cons.mp h with h2 | h2
    · rw [h2]
      exact hexDigits_getD_mem _
    · exact absurd h2 (List.not_mem_nil c)

/-- C9: the project ID is deterministic and always a 64-character
lower-case hexadecimal string, and the normalizer maps the Windows
backslash, Windows slash and WSL mount spellings of one directory to the
same canonical form. -/
theorem C9_project_id_and_normalize (env : NormEnv) (wd : List Char) :
    ComputeCCBProjectID env wd = ComputeCCBProjectID env wd ∧
    (ComputeCCBProjectID env wd).length = 64 ∧
    (∀ c ∈ ComputeCCBProjectID env wd, c ∈ hexDigits) ∧
    NormalizeWorkDir env (str "C:\\Users\\x") =
      NormalizeWorkDir env (str "c:/Users/x") ∧
    NormalizeWorkDir env (str "C:\\Users\\x") =
      NormalizeWorkDir env (str "/mnt/c/Users/x") := by
  refine ⟨rfl, ?_, ?_, ?_, ?_⟩
  · simp only [ComputeCCBProjectID]
    rw [hexEncode_length, sha256Bytes_length]
  · simp only [ComputeCCBProjectID]
    exact hexEncode_mem _
  · rw [NormalizeWorkDir_closed env (str "C:\\Users\\x") (by decide) (by decide)
        (by decide) (by decide) (by decide),
      NormalizeWorkDir_closed env (str "c:/Users/x") (by decide) (by decide)
        (by decide) (by decide) (by decide)]
    decide
  · rw [NormalizeWorkDir_closed env (str "C:\\Users\\x") (by decide) (by decide)
        (by decide) (by decide) (by decide),
      NormalizeWorkDir_closed env (str "/mnt/c/Users/x") (by decide) (by decide)
        (by decide) (by decide) (by decide)]
    decide

/-! ### Pane registry -/

/-- Registration data of one provider and project pair. -/
structure PaneEntry where
  paneID : List Char
  sessionID : List Char
  claudePane : List Char
  paneTitleMarker : List Char
  sessionPath : List Char
  workDir : List Char
  terminal : List Char
  updatedAt : Int
deriving DecidableEq

/-- The registry document: nested provider-to-project maps (modelled as
association lists, mirroring the uniqueness of map keys), a schema
version, and the legacy flat bag. -/
structure RegistryData where
  providers : List (List Char × List (List Char × PaneEntry))
  version : Int
  legacy : List (List Char × List Char)
deriving DecidableEq

/-- Seconds in the default registry TTL of seven days. -/
def registryTTLSec : Int := 7 * 24 * 60 * 60

/-- Staleness test used by the pruner: a positive update stamp older than
the cutoff. -/
def isStaleEntry (cutoff : Int) (e : PaneEntry) : Bool :=
  decide (0 < e.updatedAt) && decide (e.updatedAt < cutoff)

/-- Translation of the stale-entry pruner, at one-second granularity: a
zero TTL defaults to seven days; every entry whose update stamp is
positive and older than the cutoff is deleted; providers left empty are
dropped; the number of deletions is returned with the new data. -/
def PruneStalePanes (nowSec ttlSec : Int) (d : RegistryData) :
    Nat × RegistryData :=
  let cutoff := nowSec - (if ttlSec = 0 then registryTTLSec else ttlSec)
  let removed := (d.providers.map
    (fun pm => pm.2.countP (fun pe => isStaleEntry cutoff pe.2))).sum
  let providers := (d.providers.map
      (fun pm => (pm.1, pm.2.filter (fun pe => !isStaleEntry cutoff pe.2)))).filter
    (fun pm => !pm.2.isEmpty)
  (removed, { d with providers := providers })

/-- Membership of a full (provider, project, entry) triple in the
registry document. -/
def entryMem (d : RegistryData) (p pid : List Char) (e : PaneEntry) : Prop :=
  ∃ m, (p, m) ∈ d.providers ∧ (pid, e) ∈ m

/-- Number of entries across all providers. -/
def totalEntries (d : RegistryData) : Nat :=
  (d.providers.map (fun pm => pm.2.length)).sum

theorem length_filter_add_countP (p : List Char × PaneEntry → Bool)
    (m : List (List Char × PaneEntry)) :
    (m.filter (fun pe => !p pe)).length + m.countP p = m.length := by
  induction m with
  | nil => rfl
  | cons a as ih =>
    by_cases h : p a
    · simp [List.filter_cons, List.countP_cons, h]
      omega
    · simp only [List.filter_cons, List.countP_cons, h]
      simp [h] at *
      omega

/-- C7 (amended): pruning removes exactly the entries whose update stamp
is positive and older than the cutoff (now minus the TTL, seven days when
the TTL is zero); entries with a zero or negative stamp survive; the
returned count equals the number of entries removed. -/
theorem C7_prune_stale_panes (nowSec ttlSec : Int) (d : RegistryData)
    (p pid : List Char) (e : PaneEntry) (h : entryMem d p pid e) :
    (entryMem (PruneStalePanes nowSec ttlSec d).2 p pid e ↔
      isStaleEntry (nowSec - (if ttlSec = 0 then registryTTLSec else ttlSec)) e
        = false) ∧
    (PruneStalePanes nowSec ttlSec d).1 +
        totalEntries (PruneStalePanes nowSec ttlSec d).2 = totalEntries d := by
  constructor
  · constructor
    · intro hmem
      obtain ⟨m2, hm2, he2⟩ := hmem
      simp only [PruneStalePanes] at hm2
      rw [List.mem_filter] at hm2
      obtain ⟨hmap, -⟩ := hm2
      rw [List.mem_map] at hmap
      obtain ⟨pm, hpm, heq⟩ := hmap
      have hm2eq : m2 = pm.2.filter (fun pe =>
          !isStaleEntry (nowSec - (if ttlSec = 0 then registryTTLSec else ttlSec))
            pe.2) := by
        have := congrArg Prod.snd heq
        simpa using this.symm
      rw [hm2eq, List.mem_filter] at he2
      simpa using he2.2
    · intro hstale
      obtain ⟨m, hm, he⟩ := h
      refine ⟨m.filter (fun pe =>
        !isStaleEntry (nowSec - (if ttlSec = 0 then registryTTLSec else ttlSec))
          pe.2), ?_, ?_⟩
      · simp only [PruneStalePanes]
        rw [List.mem_filter]
        constructor
        · rw [List.mem_map]
          exact ⟨(p, m), hm, rfl⟩
        · have hin : (pid, e) ∈ m.filter (fun pe =>
              !isStaleEntry (nowSec -
                (if ttlSec = 0 then registryTTLSec else ttlSec)) pe.2) := by
            rw [List.mem_filter]
            exact ⟨he, by simpa using hstale⟩
          cases hf : m.filter (fun pe =>
              !isStaleEntry (nowSec -
                (if ttlSec = 0 then registryTTLSec else ttlSec)) pe.2) with
          | nil =>
            rw [hf] at hin
            exact absurd hin (List.not_mem_nil _)
          | cons a as => simp
      · rw [List.mem_filter]
        exact ⟨he, by simpa using hstale⟩
  · simp only [PruneStalePanes, totalEntries]
    induction d.providers with
    | nil => rfl
    | cons pm pms ih =>
      simp only [List.map_cons, List.sum_cons, List.filter_cons]
      by_cases hemp : (pm.2.filter (fun pe =>
          !isStaleEntry (nowSec - (if ttlSec = 0 then registryTTLSec else ttlSec))
            pe.2)).isEmpty
      · have hlen0 : (pm.2.filter (fun pe =>
            !isStaleEntry (nowSec -
              (if ttlSec = 0 then registryTTLSec else ttlSec)) pe.2)).length = 0 := by
          rw [List.isEmpty_iff] at hemp
          simp [hemp]
        have hcnt := length_filter_add_countP
          (fun pe => isStaleEntry (nowSec -
            (if ttlSec = 0 then registryTTLSec else ttlSec)) pe.2) pm.2
        simp only [hemp, Bool.not_true, Bool.false_eq_true, if_false]
        simp only [List.map_map] at ih ⊢
        omega
      · have hcnt := length_filter_add_countP
          (fun pe => isStaleEntry (nowSec -
            (if ttlSec = 0 then registryTTLSec else ttlSec)) pe.2) pm.2
        simp only [hemp, Bool.not_false, if_true]
        simp only [List.map_cons, List.sum_cons, List.map_map] at ih ⊢
        omega

/-- Witness for C7 at a concrete registry and time. -/
theorem C7_witness :
    entryMem
      ⟨[(str "claude", [(str "proj",
        ⟨str "%10", [], [], [], [], [], [], 100⟩)])], 2, []⟩
      (str "claude") (str "proj") ⟨str "%10", [], [], [], [], [], [], 100⟩ ∧
    ¬ entryMem
      (PruneStalePanes 1000000000 3600
        ⟨[(str "claude", [(str "proj",
          ⟨str "%10", [], [], [], [], [], [], 100⟩)])], 2, []⟩).2
      (str "claude") (str "proj") ⟨str "%10", [], [], [], [], [], [], 100⟩ := by
  have hmem : entryMem
      ⟨[(str "claude", [(str "proj",
        ⟨str "%10", [], [], [], [], [], [], 100⟩)])], 2, []⟩
      (str "claude") (str "proj") ⟨str "%10", [], [], [], [], [], [], 100⟩ :=
    ⟨[(str "proj", ⟨str "%10", [], [], [], [], [], [], 100⟩)], by simp, by simp⟩
  refine ⟨hmem, ?_⟩
  intro hbad
  have := (C7_prune_stale_panes 1000000000 3600 _ (str "claude") (str "proj")
    ⟨str "%10", [], [], [], [], [], [], 100⟩ hmem).1.mp hbad
  revert this
  decide

/-- C7 counterexample to the claim as stated: an entry whose update stamp
is zero is older than the cutoff yet survives pruning, and the count
returned is zero. -/
theorem C7_counterexample :
    (⟨str "%10", [], [], [], [], [], [], 0⟩ : PaneEntry).updatedAt <
      1000000000 - 3600 ∧
    PruneStalePanes 1000000000 3600
      ⟨[(str "claude", [(str "proj",
        ⟨str "%10", [], [], [], [], [], [], 0⟩)])], 2, []⟩ =
      (0, ⟨[(str "claude", [(str "proj",
        ⟨str "%10", [], [], [], [], [], [], 0⟩)])], 2, []⟩) := by
  constructor
  · decide
  · decide

/-! ### Session resolver -/

/-- Lookup of the entry of one provider and project. -/
def GetEntry (d : RegistryData) (provider pid : List Char) : Option PaneEntry :=
  match d.providers.find? (fun pm => pm.1 == provider) with
  | some pm => (pm.2.find? (fun pe => pe.1 == pid)).map (fun pe => pe.2)
  | none => none

/-- All entries of one provider. -/
def GetByProvider (d : RegistryData) (provider : List Char) :
    List (List Char × PaneEntry) :=
  match d.providers.find? (fun pm => pm.1 == provider) with
  | some pm => pm.2
  | none => []

/-- First provider and entry whose session ID matches. -/
def GetBySessionID (d : RegistryData) (sid : List Char) :
    Option (List Char × PaneEntry) :=
  d.providers.findSome? (fun pm =>
    (pm.2.find? (fun pe => pe.2.sessionID == sid)).map (fun pe => (pm.1, pe.2)))

/-- First provider and entry whose recorded pane matches. -/
def GetByClaudePane (d : RegistryData) (pane : List Char) :
    Option (List Char × PaneEntry) :=
  d.providers.findSome? (fun pm =>
    (pm.2.find? (fun pe => pe.2.claudePane == pane)).map (fun pe => (pm.1, pe.2)))

/-- Result of the filesystem-scan fallback. -/
structure ClaudeSessionInfo where
  sessionID : List Char
  projectKey : List Char
  logFile : List Char
deriving DecidableEq

/-- Result of session resolution, including the stage that produced it. -/
structure ResolvedSession where
  sessionID : List Char
  projectKey : List Char
  logFile : List Char
  paneID : List Char
  source : List Char
deriving DecidableEq

/-- Environment consumed by the resolver: the session environment
variable, the registry and backend, the per-project session-file content
(empty when absent), the pane environment variables, the outcome of the
filesystem fallback scan (none also covers its error path), and the
path-normalization environment. -/
structure ResolverEnv where
  ccbSessionID : List Char
  registry : Option RegistryData
  backendAlive : Option (List Char → Bool)
  sessionFileContent : List Char
  tmuxPane : List Char
  weztermPane : List Char
  fallbackInfo : Option ClaudeSessionInfo
  cfg : NormEnv

/-- A pane fails the liveness gate only when a backend is bound and
reports it dead. -/
def backendDead (env : ResolverEnv) (paneID : List Char) : Bool :=
  match env.backendAlive with
  | some alive => !(alive paneID)
  | none => false

/-- Stage one: the session environment variable, enriched from the
registry when it indexes an entry. -/
def resolveFromEnv (env : ResolverEnv) : Option ResolvedSession :=
  if (trimSpaceGo env.ccbSessionID).isEmpty then none
  else
    match env.registry with
    | some reg =>
      (match GetBySessionID reg (trimSpaceGo env.ccbSessionID) with
       | some pe => some ⟨trimSpaceGo env.ccbSessionID, pe.1, pe.2.sessionPath,
           pe.2.paneID, "env".toList⟩
       | none => some ⟨trimSpaceGo env.ccbSessionID, [], [], [], "env".toList⟩)
    | none => some ⟨trimSpaceGo env.ccbSessionID, [], [], [], "env".toList⟩

/-- Stage two: the claude entry of this project, requiring a live pane. -/
def resolveFromRegistryByProject (env : ResolverEnv) (projectID : List Char) :
    Option ResolvedSession :=
  match env.registry with
  | none => none
  | some reg =>
    match GetEntry reg "claude".toList projectID with
    | none => none
    | some e =>
      if e.paneID.isEmpty then none
      else if backendDead env e.paneID then none
      else some ⟨e.sessionID, projectID, e.sessionPath, e.paneID,
        "registry_project".toList⟩

/-- Stage three: among all claude entries, the live one with the greatest
update stamp (strictly increasing fold seeded at zero, first seen
wins ties). -/
def resolveFromRegistryUnfiltered (env : ResolverEnv) :
    Option ResolvedSession :=
  match env.registry with
  | none => none
  | some reg =>
    if (GetByProvider reg "claude".toList).isEmpty then none
    else
      match ((GetByProvider reg "claude".toList).foldl
          (fun acc ke =>
            if ke.2.paneID.isEmpty then acc
            else if backendDead env ke.2.paneID then acc
            else if acc.2 < ke.2.updatedAt then (some ke, ke.2.updatedAt)
            else acc)
          ((none : Option (List Char × PaneEntry)), (0 : Int))).1 with
      | none => none
      | some ke => some ⟨ke.2.sessionID, ke.1, ke.2.sessionPath, ke.2.paneID,
          "registry_unfiltered".toList⟩

/-- Stage four: the per-project session file content as a pane hint. -/
def resolveFromSessionFile (env : ResolverEnv) : Option ResolvedSession :=
  if env.sessionFileContent.isEmpty then none
  else some ⟨[], [], [], env.sessionFileContent, "session_file".toList⟩

/-- The current pane as read from the terminal environment variables,
the tmux one first. -/
def currentPaneOf (env : ResolverEnv) : List Char :=
  if (trimSpaceGo env.tmuxPane).isEmpty then trimSpaceGo env.weztermPane
  else trimSpaceGo env.tmuxPane

/-- Stage five: the registry entry recorded against the current pane from
the terminal environment variables. -/
def resolveFromRegistryByPane (env : ResolverEnv) : Option ResolvedSession :=
  match env.registry with
  | none => none
  | some reg =>
    if (currentPaneOf env).isEmpty then none
    else
      match GetByClaudePane reg (currentPaneOf env) with
      | none => none
      | some pe => some ⟨pe.2.sessionID, pe.1, pe.2.sessionPath, pe.2.paneID,
          "registry_pane".toList⟩

/-- Stage six: the filesystem fallback scan. -/
def resolveBestFallback (env : ResolverEnv) : Option ResolvedSession :=
  match env.fallbackInfo with
  | none => none
  | some info => some ⟨info.sessionID, info.projectKey, info.logFile, [],
      "fallback".toList⟩

/-- Translation of the resolver: the six stages in their fixed order, the
first success returned. -/
def Resolve (env : ResolverEnv) (workDir : List Char) :
    Option ResolvedSession :=
  match resolveFromEnv env with
  | some r => some r
  | none =>
  match resolveFromRegistryByProject env
      (ComputeCCBProjectID env.cfg workDir) with
  | some r => some r
  | none =>
  match resolveFromRegistryUnfiltered env with
  | some r => some r
  | none =>
  match resolveFromSessionFile env with
  | some r => some r
  | none =>
  match resolveFromRegistryByPane env with
  | some r => some r
  | none => resolveBestFallback env

/-- The outcome of each stage by index, in the resolver's order. -/
def stageResult (env : ResolverEnv) (workDir : List Char) :
    Nat → Option ResolvedSession
  | 0 => resolveFromEnv env
  | 1 => resolveFromRegistryByProject env (ComputeCCBProjectID env.cfg workDir)
  | 2 => resolveFromRegistryUnfiltered env
  | 3 => resolveFromSessionFile env
  | 4 => resolveFromRegistryByPane env
  | 5 => resolveBestFallback env
  | _ => none

/-- The source label of each stage by index. -/
def sourceTag : Nat → List Char
  | 0 => "env".toList
  | 1 => "registry_project".toList
  | 2 => "registry_unfiltered".toList
  | 3 => "session_file".toList
  | 4 => "registry_pane".toList
  | 5 => "fallback".toList
  | _ => []

theorem resolveFromEnv_source (env : ResolverEnv) (s : ResolvedSession)
    (h : resolveFromEnv env = some s) : s.source = sourceTag 0 := by
  unfold resolveFromEnv at h
  split at h
  · exact absurd h (by simp)
  · split at h
    · split at h <;> (injection h with h2; subst h2; rfl)
    · injection h with h2
      subst h2
      rfl

theorem resolveFromRegistryByProject_source (env : ResolverEnv)
    (pid : List Char) (s : ResolvedSession)
    (h : resolveFromRegistryByProject env pid = some s) :
    s.source = sourceTag 1 := by
  unfold resolveFromRegistryByProject at h
  split at h
  · exact absurd h (by simp)
  · split at h
    · exact absurd h (by simp)
    · split at h
      · exact absurd h (by simp)
      · split at h
        · exact absurd h (by simp)
        · injection h with h2
          subst h2
          rfl

theorem resolveFromRegistryUnfiltered_source (env : ResolverEnv)
    (s : ResolvedSession)
    (h : resolveFromRegistryUnfiltered env = some s) :
    s.source = sourceTag 2 := by
  unfold resolveFromRegistryUnfiltered at h
  split at h
  · exact absurd h (by simp)
  · split at h
    · exact absurd h (by simp)
    · split at h
      · exact absurd h (by simp)
      · injection h with h2
        subst h2
        rfl

theorem resolveFromSessionFile_source (env : ResolverEnv)
    (s : ResolvedSession)
    (h : resolveFromSessionFile env = some s) : s.source = sourceTag 3 := by
  unfold resolveFromSessionFile at h
  split at h
  · exact absurd h (by simp)
  · injection h with h2
    subst h2
    rfl

theorem resolveFromRegistryByPane_source (env : ResolverEnv)
    (s : ResolvedSession)
    (h : resolveFromRegistryByPane env = some s) : s.source = sourceTag 4 := by
  unfold resolveFromRegistryByPane at h
  split at h
  · exact absurd h (by simp)
  · split at h
    · exact absurd h (by simp)
    · split at h
      · exact absurd h (by simp)
      · injection h with h2
        subst h2
        rfl

theorem resolveBestFallback_source (env : ResolverEnv) (s : ResolvedSession)
    (h : resolveBestFallback env = some s) : s.source = sourceTag 5 := by
  unfold resolveBestFallback at h
  split at h
  · exact absurd h (by simp)
  · injection h with h2
    subst h2
    rfl

/-- C5: the resolver tries its six stages in the fixed order and returns
the result of the first stage that succeeds, carrying that stage's source
label, regardless of whether any later stage would also have
succeeded. -/
theorem C5_resolver_precedence (env : ResolverEnv) (workDir : List Char)
    (k : Nat) (s : ResolvedSession) (hk : k < 6)
    (hs : stageResult env workDir k = some s)
    (hprev : ∀ j, j < k → stageResult env workDir j = none) :
    Resolve env workDir = some s ∧ s.source = sourceTag k := by
  interval_cases k
  · simp only [stageResult] at hs
    refine ⟨?_, resolveFromEnv_source env s hs⟩
    unfold Resolve
    rw [hs]
  · have h0 := hprev 0 (by omega)
    simp only [stageResult] at h0 hs
    refine ⟨?_, resolveFromRegistryByProject_source env _ s hs⟩
    unfold Resolve
    rw [h0, hs]
  · have h0 := hprev 0 (by omega)
    have h1 := hprev 1 (by omega)
    simp only [stageResult] at h0 h1 hs
    refine ⟨?_, resolveFromRegistryUnfiltered_source env s hs⟩
    unfold Resolve
    rw [h0, h1, hs]
  · have h0 := hprev 0 (by omega)
    have h1 := hprev 1 (by omega)
    have h2 := hprev 2 (by omega)
    simp only [stageResult] at h0 h1 h2 hs
    refine ⟨?_, resolveFromSessionFile_source env s hs⟩
    unfold Resolve
    rw [h0, h1, h2, hs]
  · have h0 := hprev 0 (by omega)
    have h1 := hprev 1 (by omega)
    have h2 := hprev 2 (by omega)
    have h3 := hprev 3 (by omega)
    simp only [stageResult] at h0 h1 h2 h3 hs
    refine ⟨?_, resolveFromRegistryByPane_source env s hs⟩
    unfold Resolve
    rw [h0, h1, h2, h3, hs]
  · have h0 := hprev 0 (by omega)
    have h1 := hprev 1 (by omega)
    have h2 := hprev 2 (by omega)
    have h3 := hprev 3 (by omega)
    have h4 := hprev 4 (by omega)
    simp only [stageResult] at h0 h1 h2 h3 h4 hs
    refine ⟨?_, resolveBestFallback_source env s hs⟩
    unfold Resolve
    rw [h0, h1, h2, h3, h4, hs]

/-- Concrete resolver environment for the witness: the environment
variable stage succeeds while the session-file stage would also
succeed. -/
def resolverWitnessEnv : ResolverEnv :=
  ⟨str "abc", none, none, str "%42", [], [], none, ⟨none, str "/", false, false⟩⟩

/-- Witness for C5: with both stage one and stage four able to succeed,
the resolver returns stage one's result with the env source label. -/
theorem C5_witness :
    stageResult resolverWitnessEnv [] 0 =
      some ⟨str "abc", [], [], [], str "env"⟩ ∧
    stageResult resolverWitnessEnv [] 3 =
      some ⟨[], [], [], str "%42", str "session_file"⟩ ∧
    Resolve resolverWitnessEnv [] = some ⟨str "abc", [], [], [], str "env"⟩ :=
  ⟨by decide, by decide,
   (C5_resolver_precedence resolverWitnessEnv [] 0
     ⟨str "abc", [], [], [], str "env"⟩ (by omega) (by decide)
     (fun j hj => absurd hj (Nat.not_lt_zero j))).1⟩

/-! ### Daemon server: connection handling -/

/-- A decoded request object: the token and method fields, each absent
when missing from the object or not a string (the dropped type assertion
yields the empty string in both cases). -/
structure RpcReq where
  token : Option (List Char)
  method : Option (List Char)
deriving DecidableEq

/-- The method handlers of the dispatch switch. -/
inductive Dispatched where
  | pingCmd
  | shutdownCmd
  | statusCmd
  | requestCmd
  | pendCmd
deriving DecidableEq

/-- The first response written on a connection: either an error object or
the response of the dispatched handler, abstracted by its tag. -/
inductive RpcResponse where
  | errorResp (msg : List Char)
  | handlerResp (d : Dispatched)
deriving DecidableEq

/-- Observable outcome of handling one connection. -/
structure ConnOutcome where
  response : RpcResponse
  dispatched : Option Dispatched
  touchedActivity : Bool
  connClosed : Bool
deriving DecidableEq

/-- The method switch, with the dotted aliases. -/
def methodOf (m : List Char) : Option Dispatched :=
  if m == str "ping" || m == str ".ping" then some .pingCmd
  else if m == str "shutdown" || m == str ".shutdown" then some .shutdownCmd
  else if m == str "status" || m == str ".status" then some .statusCmd
  else if m == str "request" || m == str ".request" || m == str "ask" then
    some .requestCmd
  else if m == str "pend" || m == str ".pend" then some .pendCmd
  else none

/-- Translation of the connection handler: decode (failure answers
invalid request), compare the token field against the server token
(mismatch answers invalid token without touching activity or dispatching),
then record activity and dispatch by method (an unknown method answers an
error after the activity touch); the deferred close always runs. -/
def handleConn (serverToken : List Char) (req : Option RpcReq) : ConnOutcome :=
  match req with
  | none => ⟨.errorResp (str "invalid request"), none, false, true⟩
  | some q =>
    if q.token.getD [] ≠ serverToken then
      ⟨.errorResp (str "invalid token"), none, false, true⟩
    else
      match methodOf (q.method.getD []) with
      | some d => ⟨.handlerResp d, some d, true, true⟩
      | none => ⟨.errorResp (str "unknown method: " ++ q.method.getD []),
          none, true, true⟩

/-- C6: every request whose token field is absent or differs from the
(nonempty) server token is answered with the invalid-token error object
and a closed connection, with no method handler dispatched and the
last-activity timestamp untouched. -/
theorem C6_invalid_token_rejected (serverToken : List Char) (q : RpcReq)
    (hst : serverToken ≠ [])
    (h : q.token = none ∨ q.token.getD [] ≠ serverToken) :
    handleConn serverToken (some q) =
      ⟨.errorResp (str "invalid token"), none, false, true⟩ := by
  have hne : q.token.getD [] ≠ serverToken := by
    rcases h with h | h
    · rw [h]
      exact fun hc => hst hc.symm
    · exact h
  simp only [handleConn]
  rw [if_pos hne]

/-- Witness for C6 at a concrete token and request. -/
theorem C6_witness :
    (str "tok123" ≠ []) ∧
    handleConn (str "tok123") (some ⟨some (str "bad"), some (str "ping")⟩) =
      ⟨.errorResp (str "invalid token"), none, false, true⟩ :=
  ⟨by decide,
   C6_invalid_token_rejected (str "tok123")
     ⟨some (str "bad"), some (str "ping")⟩ (by decide)
     (Or.inr (by decide))⟩

/-! ### Daemon server: parent monitor -/

/-- Platform semantics of the process probe used by the parent monitor:
on Windows it fails for a missing process, on Unix it always succeeds
regardless of whether the process exists (the signal-zero check the
code's comment calls for is absent). -/
def findProcessFails (goosWindows parentExists : Bool) : Bool :=
  if goosWindows then !parentExists else false

/-- Observable server lifetime state for the monitor. -/
structure ServerState where
  stateFilePath : List Char
  stateFileExists : Bool
  listenerOpen : Bool
  shutdownClosed : Bool
deriving DecidableEq

/-- Translation of the shutdown routine: close the shutdown channel,
close the listener, and remove the state file when one is configured. -/
def ServerShutdown (st : ServerState) : ServerState :=
  { st with
    shutdownClosed := true
    listenerOpen := false
    stateFileExists := (if st.stateFilePath.isEmpty then st.stateFileExists
      else false) }

/-- Translation of one five-second parent-monitor tick: shut down exactly
when the process probe returns an error. -/
def parentMonitorTick (goosWindows parentExists : Bool) (st : ServerState) :
    ServerState :=
  if findProcessFails goosWindows parentExists then ServerShutdown st else st

/-- C8: evaluation at the failing input. On a Unix daemon whose parent
process no longer exists, the monitor tick leaves the server fully
running, because the process probe never fails there and the signal-zero
liveness check announced by the code is missing; the claim's shutdown
(state file removed, listener closed) is observed only on Windows. -/
theorem C8_parent_monitor_dead_parent :
    parentMonitorTick false false ⟨str "askd.json", true, true, false⟩ =
      ⟨str "askd.json", true, true, false⟩ ∧
    parentMonitorTick true false ⟨str "askd.json", true, true, false⟩ =
      ⟨str "askd.json", false, false, true⟩ :=
  ⟨by decide, by decide⟩

/-! ### Reverse log tailer -/

/-- Translation of the backward chunk loop of the reverse reader. The
chunk size is carried as its predecessor so that each read is at least
one byte, mirroring the defaulting of non-positive sizes before the
loop; pos falls by the read size each turn; the first token of a chunk
taken mid-file is kept as leftover, the rest are trimmed and prepended;
the loop stops at the file start or once more than n lines are
collected. A fuel argument, initialised to pos (each turn lowers pos by
at least one, so it never runs out), makes the recursion structural. -/
def rrLoop (file : List Char) (cs1 n : Nat) :
    Nat → Nat → List Char → List (List Char) → List Char × List (List Char)
  | 0, _, leftover, collected => (leftover, collected)
  | fuel + 1, pos, leftover, collected =>
    if 0 < pos ∧ collected.length < n + 1 then
      if 0 < pos - min (cs1 + 1) pos then
        rrLoop file cs1 n fuel (pos - min (cs1 + 1) pos)
          (splitOnNl ((file.drop (pos - min (cs1 + 1) pos)).take
            (min (cs1 + 1) pos) ++ leftover)).headI
          ((splitOnNl ((file.drop (pos - min (cs1 + 1) pos)).take
            (min (cs1 + 1) pos) ++ leftover)).tail.map trimCR ++ collected)
      else
        rrLoop file cs1 n fuel (pos - min (cs1 + 1) pos) []
          ((splitOnNl ((file.drop (pos - min (cs1 + 1) pos)).take
            (min (cs1 + 1) pos) ++ leftover)).map trimCR ++ collected)
    else (leftover, collected)

/-- Drop trailing empty lines, as the reverse reader does before sizing
its result. -/
def removeTrailingEmpty (ls : List (List Char)) : List (List Char) :=
  (ls.reverse.dropWhile (fun l => l.isEmpty)).reverse

/-- Reattach a leftover that reached the file start: prepend it, trimmed
of carriage returns, when it is nonempty. -/
def rrCollect (lr : List Char × List (List Char)) : List (List Char) :=
  if lr.1.isEmpty then lr.2 else trimCR lr.1 :: lr.2

/-- Keep only the last n collected lines. -/
def rrLastN (n : Nat) (l : List (List Char)) : List (List Char) :=
  if n < l.length then l.drop (l.length - n) else l

/-- Translation of the reverse reader's last-n-lines read: nothing for a
non-positive count or an empty file; otherwise scan backward in chunks
(non-positive sizes default to 8192), reattach a leftover reaching the
file start, drop trailing empty lines, and keep only the last n. -/
def ReadLastLines (chunkSize n : Nat) (file : List Char) :
    List (List Char) :=
  if n = 0 then [] else
  if file.isEmpty then [] else
  rrLastN n (removeTrailingEmpty (rrCollect
    (rrLoop file ((if chunkSize = 0 then 8192 else chunkSize) - 1) n
      file.length file.length [] [])))

theorem cons_headI_tail (l : List (List Char)) (h : l ≠ []) :
    l.headI :: l.tail = l := by
  cases l with
  | nil => exact absurd rfl h
  | cons x ls => rfl

/-- Left decomposition of the newline splitter: prepending text to a
tail merges only with the first token of the tail's split. -/
theorem splitOnNl_append_head (a b : List Char) :
    splitOnNl (a ++ b) =
      splitOnNl (a ++ (splitOnNl b).headI) ++ (splitOnNl b).tail := by
  induction a with
  | nil =>
    rw [List.nil_append, List.nil_append]
    have hne := splitOnNl_ne_nil b
    have hmem : (splitOnNl b).headI ∈ splitOnNl b := by
      cases hB : splitOnNl b with
      | nil => exact absurd hB hne
      | cons x ls => simp
    have hnonl : '\n' ∉ (splitOnNl b).headI := (mem_splitOnNl b _ hmem).2
    rw [splitOnNl_no_nl _ hnonl]
    rw [List.singleton_append, cons_headI_tail _ hne]
  | cons c a ih =>
    by_cases hc : c = '\n'
    · subst hc
      rw [List.cons_append, splitOnNl_cons_nl, ih, List.cons_append,
        splitOnNl_cons_nl, List.cons_append]
    · have hne := splitOnNl_ne_nil (a ++ (splitOnNl b).headI)
      cases hS : splitOnNl (a ++ (splitOnNl b).headI) with
      | nil => exact absurd hS hne
      | cons x ls =>
        have hL : splitOnNl (c :: (a ++ b)) =
            (c :: (splitOnNl (a ++ b)).headI) :: (splitOnNl (a ++ b)).tail := by
          simp [splitOnNl, hc]
        have hR : splitOnNl (c :: (a ++ (splitOnNl b).headI)) =
            (c :: x) :: ls := by
          simp [splitOnNl, hc, hS]
        rw [List.cons_append, hL, ih, hS]
        simp [hR]

theorem rrLoop_pos_zero (file : List Char) (cs1 n fuel : Nat)
    (leftover : List Char) (collected : List (List Char)) :
    rrLoop file cs1 n fuel 0 leftover collected = (leftover, collected) := by
  cases fuel with
  | zero => rfl
  | succ fuel =>
    rw [rrLoop, if_neg]
    intro hc
    exact Nat.lt_irrefl 0 hc.1

/-- Invariant characterisation of the backward loop: called at offset
pos with the head of the suffix split as leftover and the trimmed tail
as collected, it either scans to the file start and yields every token
of the whole split trimmed, or exits early at some positive offset with
more than n trimmed tail tokens of that suffix. -/
theorem rrLoop_spec (file : List Char) (cs1 n : Nat) :
    ∀ fuel pos, pos ≤ fuel → 0 < pos → pos ≤ file.length →
      rrLoop file cs1 n fuel pos (splitOnNl (file.drop pos)).headI
          ((splitOnNl (file.drop pos)).tail.map trimCR) =
        ([], (splitOnNl file).map trimCR) ∨
      ∃ pos2, 0 < pos2 ∧
        rrLoop file cs1 n fuel pos (splitOnNl (file.drop pos)).headI
          ((splitOnNl (file.drop pos)).tail.map trimCR) =
          ((splitOnNl (file.drop pos2)).headI,
            (splitOnNl (file.drop pos2)).tail.map trimCR) ∧
        n + 1 ≤ ((splitOnNl (file.drop pos2)).tail).length := by
  intro fuel
  induction fuel with
  | zero => intro pos hpf hpos _; omega
  | succ fuel ih =>
    intro pos hpf hpos hple
    rw [rrLoop]
    by_cases hfull : ((splitOnNl (file.drop pos)).tail.map trimCR).length < n + 1
    · rw [if_pos ⟨hpos, hfull⟩]
      have hm : 0 < min (cs1 + 1) pos := lt_min_iff.mpr ⟨Nat.succ_pos cs1, hpos⟩
      have hmle : min (cs1 + 1) pos ≤ pos := min_le_right _ _
      have hdecomp : file.drop (pos - min (cs1 + 1) pos) =
          (file.drop (pos - min (cs1 + 1) pos)).take (min (cs1 + 1) pos) ++
            file.drop pos := by
        conv_lhs => rw [← List.take_append_drop (min (cs1 + 1) pos)
          (file.drop (pos - min (cs1 + 1) pos))]
        rw [List.drop_drop]
        congr 2
        omega
      have hkey : splitOnNl (file.drop (pos - min (cs1 + 1) pos)) =
          splitOnNl ((file.drop (pos - min (cs1 + 1) pos)).take
              (min (cs1 + 1) pos) ++ (splitOnNl (file.drop pos)).headI) ++
            (splitOnNl (file.drop pos)).tail := by
        conv_lhs => rw [hdecomp]
        exact splitOnNl_append_head _ _
      cases hS : splitOnNl ((file.drop (pos - min (cs1 + 1) pos)).take
          (min (cs1 + 1) pos) ++ (splitOnNl (file.drop pos)).headI) with
      | nil => exact absurd hS (splitOnNl_ne_nil _)
      | cons s0 srest =>
        rw [hS] at hkey
        by_cases h2 : 0 < pos - min (cs1 + 1) pos
        · rw [if_pos h2]
          have hhead : (s0 :: srest).headI =
              (splitOnNl (file.drop (pos - min (cs1 + 1) pos))).headI := by
            rw [hkey]
            simp
          have htail : (s0 :: srest).tail.map trimCR ++
                (splitOnNl (file.drop pos)).tail.map trimCR =
              (splitOnNl (file.drop (pos - min (cs1 + 1) pos))).tail.map
                trimCR := by
            rw [hkey]
            simp
          rw [hhead, htail]
          exact ih (pos - min (cs1 + 1) pos) (by omega) h2 (by omega)
        · rw [if_neg h2]
          have hz : pos - min (cs1 + 1) pos = 0 := by omega
          rw [hz, rrLoop_pos_zero]
          rw [hz, List.drop_zero] at hkey
          left
          rw [hkey]
          simp
    · rw [if_neg (fun hc => hfull hc.2)]
      right
      refine ⟨pos, hpos, rfl, ?_⟩
      rw [List.length_map] at hfull
      omega

theorem removeTrailingEmpty_append (u v : List (List Char))
    (hv : removeTrailingEmpty v ≠ []) :
    removeTrailingEmpty (u ++ v) = u ++ removeTrailingEmpty v := by
  have hne : v.reverse.dropWhile (fun l => l.isEmpty) ≠ [] := by
    intro hc
    exact hv (by rw [removeTrailingEmpty, hc]; rfl)
  rw [removeTrailingEmpty, List.reverse_append, List.dropWhile_append,
    if_neg (by simpa [List.isEmpty_iff] using hne), List.reverse_append,
    List.reverse_reverse, removeTrailingEmpty]

theorem removeTrailingEmpty_all_empty_bound (u v : List (List Char))
    (hv : removeTrailingEmpty v = []) :
    (removeTrailingEmpty (u ++ v)).length ≤ u.length := by
  have hnil : v.reverse.dropWhile (fun l => l.isEmpty) = [] := by
    have := congrArg List.reverse hv
    rw [removeTrailingEmpty, List.reverse_reverse] at this
    simpa using this
  rw [removeTrailingEmpty, List.reverse_append, List.dropWhile_append,
    if_pos (by simp [List.isEmpty_iff, hnil]), List.length_reverse]
  calc (u.reverse.dropWhile (fun l => l.isEmpty)).length
      ≤ u.reverse.length := (List.dropWhile_sublist _).length_le
    _ = u.length := List.length_reverse u

/-- Splitting a suffix out of the token list: when the whole list has at
most one trailing empty token, so does any suffix of length at least
two, and trimming trailing empties commutes with the decomposition. -/
theorem removeTrailingEmpty_suffix_bound (u v : List (List Char))
    (hrun : (u ++ v).length ≤ (removeTrailingEmpty (u ++ v)).length + 1)
    (hv2 : 2 ≤ v.length) :
    removeTrailingEmpty (u ++ v) = u ++ removeTrailingEmpty v ∧
      v.length ≤ (removeTrailingEmpty v).length + 1 := by
  by_cases hv : removeTrailingEmpty v = []
  · exfalso
    have h1 := removeTrailingEmpty_all_empty_bound u v hv
    rw [List.length_append] at hrun
    omega
  · have heq := removeTrailingEmpty_append u v hv
    refine ⟨heq, ?_⟩
    have h2 : (removeTrailingEmpty (u ++ v)).length =
        u.length + (removeTrailingEmpty v).length := by
      rw [heq, List.length_append]
    rw [List.length_append] at hrun
    omega

theorem drop_last_of_suffix (u s : List (List Char)) (n : Nat)
    (hn : n ≤ s.length) :
    (u ++ s).drop ((u ++ s).length - n) = s.drop (s.length - n) := by
  rw [List.length_append]
  have h : u.length + s.length - n = u.length + (s.length - n) := by omega
  rw [h, List.drop_append]

theorem rrLastN_eq_drop (n : Nat) (l : List (List Char)) :
    rrLastN n l = l.drop (l.length - n) := by
  rw [rrLastN]
  by_cases h : n < l.length
  · rw [if_pos h]
  · rw [if_neg h]
    have hz : l.length - n = 0 := by omega
    rw [hz, List.drop_zero]

/-- C4 (amended): for a positive line count and a file whose
newline-split, CR-trimmed token list carries at most one trailing empty
token (i.e. the file does not end in consecutive blank lines),
ReadLastLines returns, for every chunk size, exactly the last min(n, k)
of the file's k logical lines (the split tokens with trailing empties
removed) in forward order. The original claim, quantifying over every
chunk size with no restriction on trailing blank lines, is refuted by
the accompanying counterexample: the early-exit budget of the backward
loop counts trailing empty tokens, so small chunks can exhaust it on
blanks and drop every real line. -/
theorem C4_reverse_tailer_completeness (chunkSize n : Nat) (file : List Char)
    (hn : 0 < n)
    (hrun : ((splitOnNl file).map trimCR).length ≤
      (removeTrailingEmpty ((splitOnNl file).map trimCR)).length + 1) :
    ReadLastLines chunkSize n file =
      (removeTrailingEmpty ((splitOnNl file).map trimCR)).drop
        ((removeTrailingEmpty ((splitOnNl file).map trimCR)).length - n) ∧
    (ReadLastLines chunkSize n file).length =
      min n (removeTrailingEmpty ((splitOnNl file).map trimCR)).length := by
  have hmain : ReadLastLines chunkSize n file =
      (removeTrailingEmpty ((splitOnNl file).map trimCR)).drop
        ((removeTrailingEmpty ((splitOnNl file).map trimCR)).length - n) := by
    by_cases hf : file = []
    · subst hf
      have h1 : removeTrailingEmpty
          ((splitOnNl ([] : List Char)).map trimCR) = [] := by decide
      rw [h1]
      simp [ReadLastLines]
    · have hlen : 0 < file.length := List.length_pos.mpr hf
      have hinit : rrLoop file ((if chunkSize = 0 then 8192 else chunkSize) - 1)
          n file.length file.length [] [] =
          rrLoop file ((if chunkSize = 0 then 8192 else chunkSize) - 1) n
            file.length file.length (splitOnNl (file.drop file.length)).headI
            ((splitOnNl (file.drop file.length)).tail.map trimCR) := by
        rw [List.drop_length]
        rfl
      have hspec := rrLoop_spec file
        ((if chunkSize = 0 then 8192 else chunkSize) - 1) n file.length
        file.length le_rfl hlen le_rfl
      rw [← hinit] at hspec
      rw [ReadLastLines, if_neg (by omega),
        if_neg (by simpa [List.isEmpty_iff] using hf)]
      rcases hspec with hA | ⟨pos2, hpos2, heq, hcnt⟩
      · rw [hA]
        have hc : rrCollect (([] : List Char), (splitOnNl file).map trimCR) =
            (splitOnNl file).map trimCR := rfl
        rw [hc, rrLastN_eq_drop]
      · rw [heq]
        have hfile : splitOnNl file =
            splitOnNl (file.take pos2 ++ (splitOnNl (file.drop pos2)).headI) ++
              (splitOnNl (file.drop pos2)).tail := by
          conv_lhs => rw [← List.take_append_drop pos2 file]
          exact splitOnNl_append_head _ _
        have hmap : (splitOnNl file).map trimCR =
            (splitOnNl (file.take pos2 ++
                (splitOnNl (file.drop pos2)).headI)).map trimCR ++
              (splitOnNl (file.drop pos2)).tail.map trimCR := by
          rw [hfile, List.map_append]
        have hrun2 := hrun
        rw [hmap] at hrun2
        have hv2 : 2 ≤ ((splitOnNl (file.drop pos2)).tail.map trimCR).length := by
          rw [List.length_map]
          omega
        have hsb := removeTrailingEmpty_suffix_bound _ _ hrun2 hv2
        have hm : n ≤ (removeTrailingEmpty
            ((splitOnNl (file.drop pos2)).tail.map trimCR)).length := by
          have h2 := hsb.2
          rw [List.length_map] at h2
          omega
        have hrte_ne : removeTrailingEmpty
            ((splitOnNl (file.drop pos2)).tail.map trimCR) ≠ [] :=
          List.ne_nil_of_length_pos (by omega)
        have hlines : removeTrailingEmpty ((splitOnNl file).map trimCR) =
            (splitOnNl (file.take pos2 ++
                (splitOnNl (file.drop pos2)).headI)).map trimCR ++
              removeTrailingEmpty
                ((splitOnNl (file.drop pos2)).tail.map trimCR) := by
          rw [hmap]
          exact hsb.1
        by_cases hL : (splitOnNl (file.drop pos2)).headI = []
        · have hc : rrCollect ((splitOnNl (file.drop pos2)).headI,
              (splitOnNl (file.drop pos2)).tail.map trimCR) =
              (splitOnNl (file.drop pos2)).tail.map trimCR := by
            rw [rrCollect, if_pos (by simp [List.isEmpty_iff, hL])]
          rw [hc, rrLastN_eq_drop, hlines]
          exact (drop_last_of_suffix _ _ n hm).symm
        · have hc : rrCollect ((splitOnNl (file.drop pos2)).headI,
              (splitOnNl (file.drop pos2)).tail.map trimCR) =
              trimCR (splitOnNl (file.drop pos2)).headI ::
                (splitOnNl (file.drop pos2)).tail.map trimCR := by
            rw [rrCollect, if_neg (by simp [List.isEmpty_iff, hL])]
          rw [hc]
          have hrte_cons : removeTrailingEmpty
              (trimCR (splitOnNl (file.drop pos2)).headI ::
                (splitOnNl (file.drop pos2)).tail.map trimCR) =
              trimCR (splitOnNl (file.drop pos2)).headI ::
                removeTrailingEmpty
                  ((splitOnNl (file.drop pos2)).tail.map trimCR) := by
            have h3 := removeTrailingEmpty_append
              [trimCR (splitOnNl (file.drop pos2)).headI] _ hrte_ne
            simpa using h3
          rw [hrte_cons, rrLastN_eq_drop]
          have hlen_cons : (trimCR (splitOnNl (file.drop pos2)).headI ::
              removeTrailingEmpty
                ((splitOnNl (file.drop pos2)).tail.map trimCR)).length =
              (removeTrailingEmpty
                ((splitOnNl (file.drop pos2)).tail.map trimCR)).length + 1 := by
            simp
          rw [hlen_cons]
          have harith : (removeTrailingEmpty
              ((splitOnNl (file.drop pos2)).tail.map trimCR)).length + 1 - n =
              ((removeTrailingEmpty
                ((splitOnNl (file.drop pos2)).tail.map trimCR)).length - n) +
                1 := by
            omega
          rw [harith, List.drop_succ_cons, hlines]
          exact (drop_last_of_suffix _ _ n hm).symm
  refine ⟨hmain, ?_⟩
  rw [hmain, List.length_drop]
  omega

/-- C4 counterexample refuting the unrestricted claim: on the file
"a\n\n\n", whose logical lines after dropping trailing empties are just
["a"], a read of the last 1 line succeeds with the 4096-byte chunks but
returns nothing with 1-byte chunks, because the backward loop's n+1
collection budget is exhausted by the trailing empty tokens before any
real line is reached; the result thus depends on the chunk size and can
lose the last line, contradicting the claim for every notion of the
file's line list. -/
theorem C4_counterexample :
    removeTrailingEmpty ((splitOnNl
        ('a' :: '\n' :: '\n' :: '\n' :: [])).map trimCR) = [['a']] ∧
    ReadLastLines 4096 1 ('a' :: '\n' :: '\n' :: '\n' :: []) = [['a']] ∧
    ReadLastLines 1 1 ('a' :: '\n' :: '\n' :: '\n' :: []) = [] := by
  decide

/-- C4 witness: the amended theorem applied to the file "a\nb\nc\n" with
n = 2 and chunk size 1. -/
theorem C4_witness :
    0 < 2 ∧
    (ReadLastLines 1 2 ('a' :: '\n' :: 'b' :: '\n' :: 'c' :: '\n' :: []) =
      (removeTrailingEmpty ((splitOnNl
          ('a' :: '\n' :: 'b' :: '\n' :: 'c' :: '\n' :: [])).map trimCR)).drop
        ((removeTrailingEmpty ((splitOnNl
          ('a' :: '\n' :: 'b' :: '\n' :: 'c' :: '\n' :: [])).map
            trimCR)).length - 2) ∧
    (ReadLastLines 1 2
        ('a' :: '\n' :: 'b' :: '\n' :: 'c' :: '\n' :: [])).length =
      min 2 (removeTrailingEmpty ((splitOnNl
        ('a' :: '\n' :: 'b' :: '\n' :: 'c' :: '\n' :: [])).map
          trimCR)).length) :=
  ⟨by decide, C4_reverse_tailer_completeness 1 2
    ('a' :: '\n' :: 'b' :: '\n' :: 'c' :: '\n' :: []) (by decide)
    (by decide)⟩

end CCB
